import Mathlib

/-!
A verification development for the AST construction and transformation
pipeline of the workflow-inference compiler (`src/wic/ast.py`):
the recursive loader (`read_ast_from_disk`), the parameter merge engine
(`merge_yml_trees`, built on the `mergedeep` library's
`Strategy.TYPESAFE_REPLACE` deep merge), the forest builder
(`tree_to_forest`) and the inline-script tool synthesizer
(`python_script_generate_cwl`).

The Python functions are shallowly embedded as fueled, executable Lean
functions over an explicit YAML document type.  Python's in-place dict
mutation is rendered as value-passing; Python exceptions and `sys.exit`
are rendered as an `Except` error monad; the filesystem, the schema
validator, the uuid generator and the script-introspection adapter
(`python_cwl_adapter`, which lives outside the embedded core) are passed
in as explicit parameters.  Recursion through files read from disk is not
structurally bounded, so every pass takes a fuel parameter; fuel
exhaustion is a dedicated error, and theorems quantify over the fuel.
-/

namespace Wic

/-- Identity of a tool or DSL document: `StepId = NamedTuple('StepId',
[('stem', str), ('plugin_ns', str)])` from `wic_types.py`. -/
structure StepId where
  stem : String
  plugin_ns : String
deriving DecidableEq, Repr

/-- Keys of the associative structures.  Raw YAML documents have string
keys; after the loader pass, `wic.backends` mappings are keyed by
`StepId` values (Python dicts are heterogeneously keyed). -/
inductive YKey where
  | str (s : String)
  | sid (i : StepId)
deriving DecidableEq, Repr

/-- An untyped YAML document (`Yaml` in `wic_types.py`): scalars,
sequences and insertion-ordered mappings, the latter modelled as
association lists (Python dicts preserve insertion order). -/
inductive Yaml where
  | null
  | bool (b : Bool)
  | int (n : Int)
  | str (s : String)
  | list (xs : List Yaml)
  | map (kvs : List (YKey × Yaml))
deriving Repr

/-- `YamlTree = NamedTuple('YamlTree', [('step_id', StepId), ('yml', Yaml)])`. -/
structure YamlTree where
  step_id : StepId
  yml : Yaml
deriving Repr

/-- `Tool = NamedTuple('Tool', [('run_path', str), ('cwl', Cwl)])`. -/
structure Tool where
  run_path : String
  cwl : Yaml
deriving Repr

/-- `Tools = Dict[StepId, Tool]`, as an insertion-ordered association list. -/
def Tools := List (StepId × Tool)

/-- `YamlForest = NamedTuple('YamlForest', [('yaml_tree', YamlTree),
('sub_forests', List[Tuple[StepId, YamlForest]])])`. -/
inductive YamlForest where
  | mk (yaml_tree : YamlTree) (sub_forests : List (StepId × YamlForest))

def YamlForest.yaml_tree : YamlForest → YamlTree
  | .mk t _ => t

def YamlForest.sub_forests : YamlForest → List (StepId × YamlForest)
  | .mk _ c => c

/-- Abrupt outcomes of the passes.  `exc` models `raise Exception(msg)`;
`validationFailed` models the `sys.exit(1)` after a failed schema
validation; `typeError` models the `TypeError` raised by `mergedeep`'s
typesafe strategies; `notMappings` models the `TypeError` Python raises
when `mergedeep.merge` is applied to non-mapping operands; `shapeError`
collects the `KeyError` / `IndexError` / `AttributeError` exceptions
Python would raise on documents that do not have the schema-guaranteed
shape; `outOfFuel` is the artifact of the fueled embedding. -/
inductive Err where
  | validationFailed (stem : String)
  | exc (msg : String)
  | typeError (key : YKey)
  | notMappings
  | shapeError
  | outOfFuel
deriving DecidableEq, Repr

/-! ## Association list primitives (Python dict operations) -/

/-- Dict lookup (first occurrence; Python dict keys are unique). -/
def alookup : List (YKey × Yaml) → YKey → Option Yaml
  | [], _ => none
  | (k, v) :: rest, k' => if k = k' then some v else alookup rest k'

/-- Dict assignment `d[k] = v`: replaces in place if the key is present
(Python keeps the key's position), appends otherwise. -/
def aset : List (YKey × Yaml) → YKey → Yaml → List (YKey × Yaml)
  | [], k', v' => [(k', v')]
  | (k, v) :: rest, k', v' =>
    if k = k' then (k, v') :: rest else (k, v) :: aset rest k' v'

/-- Dict deletion `del d[k]` (first occurrence). -/
def adel : List (YKey × Yaml) → YKey → List (YKey × Yaml)
  | [], _ => []
  | (k, v) :: rest, k' => if k = k' then rest else (k, v) :: adel rest k'

/-- `k in d` on a mapping. -/
def hasK (kvs : List (YKey × Yaml)) (k : String) : Bool :=
  (alookup kvs (.str k)).isSome

/-- String-keyed lookup on a `Yaml` value that is expected to be a
mapping; `none` if it is not. -/
def yGet (y : Yaml) (k : String) : Option Yaml :=
  match y with
  | .map kvs => alookup kvs (.str k)
  | _ => none

/-- Python `d.get(k, default)`.  (On a non-mapping receiver Python would
raise `AttributeError`; the passes only apply `.get` to values the schema
constrains to be mappings, and this total model returns the default
there.) -/
def dGet (y : Yaml) (k : String) (d : Yaml) : Yaml :=
  (yGet y k).getD d

/-- `.map`-typed setter `d[k] = v` for string keys on a document. -/
def ySet (y : Yaml) (k : String) (v : Yaml) : Yaml :=
  match y with
  | .map kvs => .map (aset kvs (.str k) v)
  | _ => y

/-- Python truthiness of a YAML value (`if steps[i][step_key]:`). -/
def yTruthy : Yaml → Bool
  | .null => false
  | .bool b => b
  | .int n => n != 0
  | .str s => s ≠ ""
  | .list xs => !xs.isEmpty
  | .map kvs => !kvs.isEmpty

/-- Constructor index, standing for the Python runtime type: the
typesafe merge strategies compare `type(dst[key]) is type(src[key])`. -/
def kindIdx : Yaml → Nat
  | .null => 0
  | .bool _ => 1
  | .int _ => 2
  | .str _ => 3
  | .list _ => 4
  | .map _ => 5

/-- Same Python runtime type. -/
def sameKind (a b : Yaml) : Bool :=
  kindIdx a = kindIdx b

def Yaml.isMap : Yaml → Bool
  | .map _ => true
  | _ => false

/-- The empty mapping `{}`. -/
def yEmpty : Yaml := .map []

/-! ## The mergedeep deep merge, `Strategy.TYPESAFE_REPLACE`

`merge_yml_trees` performs all of its merging through
`mergedeep.merge(dst, src, strategy=Strategy.TYPESAFE_REPLACE)`, which
walks the keys of `src`: a key absent from `dst` is inserted; a key
present in both with two mapping values is merged recursively; a key
present in both whose values have different runtime types raises
`TypeError`; otherwise the value from `src` replaces the value in `dst`.
(The library's `dst[key] is src[key]` identity shortcut keeps the
destination object when both sides are the same object; under value
semantics this coincides with replacement and needs no separate case.)
The functions are fueled so that they compute by `rfl`/`decide`; fuel is
spent on every recursive call. -/

mutual

/-- `mergedeep.merge(dst, src, strategy=Strategy.TYPESAFE_REPLACE)`. -/
def deepmerge (fuel : Nat) (dst src : Yaml) : Except Err Yaml :=
  match fuel with
  | 0 => .error .outOfFuel
  | fuel + 1 =>
    match dst, src with
    | .map d, .map s => do pure (.map (← mergeList fuel d s))
    | _, _ => .error .notMappings

/-- The `for key in src:` loop of `mergedeep._deepmerge`. -/
def mergeList (fuel : Nat) (d : List (YKey × Yaml)) :
    List (YKey × Yaml) → Except Err (List (YKey × Yaml))
  | [] => pure d
  | (k, v) :: rest =>
    match fuel with
    | 0 => .error .outOfFuel
    | fuel + 1 => do mergeList fuel (← mergeKey fuel d k v) rest

/-- One iteration of the `mergedeep._deepmerge` loop body. -/
def mergeKey (fuel : Nat) (d : List (YKey × Yaml)) (k : YKey) (v : Yaml) :
    Except Err (List (YKey × Yaml)) :=
  match fuel with
  | 0 => .error .outOfFuel
  | fuel + 1 =>
    match alookup d k with
    | none => pure (d ++ [(k, v)])
    | some dv =>
      match dv, v with
      | .map dm, .map sm => do pure (aset d k (.map (← mergeList fuel dm sm)))
      | _, _ =>
        if sameKind dv v then pure (aset d k v)
        else .error (.typeError k)

end

/-! ## Reserved key names and other string constants -/

def kWic : String := "wic"
def kBackends : String := "backends"
def kSteps : String := "steps"
def kNamespace : String := "namespace"
def kSubtree : String := "subtree"
def kParentargs : String := "parentargs"
def kIn : String := "in"
def kScript : String := "script"
def kDockerPull : String := "dockerPull"
def kInlineInput : String := "wic_inline_input"
def kPythonScript : String := "python_script"
def sGlobal : String := "global"
def sWicExt : String := ".wic"
def sAutogen : String := "autogenerated/"
def sCwlExt : String := ".cwl"
def sPSMinted : String := "python_script_"

/-! ## pathlib helpers

`PurePath.name` is the final path component; `PurePath.stem` is the name
with its last extension removed (an extension needs a dot that is not the
name's first character); `PurePath.suffix` is that last extension. -/

def pathName (p : String) : String :=
  String.mk ((p.toList.reverse.takeWhile (fun c => !(c = '/'))).reverse)

def lastDotIdx (cs : List Char) : Option Nat :=
  match cs.reverse.findIdx? (fun c => c = '.') with
  | none => none
  | some j => some (cs.length - 1 - j)

def pathStem (p : String) : String :=
  let base := pathName p
  let cs := base.toList
  match lastDotIdx cs with
  | none => base
  | some i => if 0 < i then String.mk (cs.take i) else base

def pathSuffix (p : String) : String :=
  let base := pathName p
  let cs := base.toList
  match lastDotIdx cs with
  | none => ""
  | some i => if 0 < i then String.mk (cs.drop i) else ""

/-! ## Repository helpers not under src/

`utils.get_steps_keys` and `utils.get_subkeys` live in `utils.py`, which
is not among the provided sources; they are modelled from the spec. -/

/-- Modelled from the spec: the `steps` block is "a `steps` ordered
sequence of single-key mappings, each key a step identity reference";
`get_steps_keys` collects the key of every step mapping, in order
(missing from src/: `utils.get_steps_keys`). -/
def get_steps_keys (steps : List Yaml) : List String :=
  (steps.map (fun st =>
    match st with
    | .map kvs => kvs.filterMap (fun kv =>
        match kv.1 with
        | .str s => some s
        | _ => none)
    | _ => [])).flatten

/-- Modelled from the spec: "determine whether the step's stem matches a
known primitive tool stem (a 'leaf') or not (a 'reference needing
resolution')" — the step keys that are not stems of registered tools
(missing from src/: `utils.get_subkeys`). -/
def get_subkeys (steps_keys tools_stems : List String) : List String :=
  steps_keys.filter (fun k => !tools_stems.contains k)

/-! ## Namespace resolution and the loader's diagnostic messages -/

/-- The positional per-step override key `f'({i+1}, {step_key})'`. -/
def stepPosKey (i : Nat) (step_key : String) : String :=
  "(" ++ toString (i + 1) ++ ", " ++ step_key ++ ")"

/-- The per-step namespace resolution shared by the loader (ast.py lines
90-91) and the forest builder (lines 235-236):
`wic_steps.get(f'({i+1}, {step_key})', {}).get('wic', {}).get('namespace', 'global')`.
A declared namespace that is not a string is excluded by the schema and
mapped to `""` here. -/
def resolveStepNs (wic_steps : Yaml) (i : Nat) (step_key : String) : String :=
  match yGet (dGet (dGet wic_steps (stepPosKey i step_key) yEmpty) kWic yEmpty) kNamespace with
  | some (.str s) => s
  | some _ => ""
  | none => sGlobal

/-- The document-level namespace `wic['wic'].get('namespace', 'global')`
used when recursing into backends (ast.py line 65). -/
def nsOfWic (wicv : Yaml) : String :=
  match yGet wicv kNamespace with
  | some (.str s) => s
  | some _ => ""
  | none => sGlobal

/-- ast.py line 96-97. -/
def nsNotFoundMsg (plugin_ns : String) : String :=
  "Error! namespace " ++ plugin_ns ++
    " not found in yaml paths. Check \x27search_paths_wic\x27 in your config file"

/-- ast.py line 99: the base diagnostic, naming the unresolved stem, its
namespace, and the referring document. -/
def stemNotFoundBase (stem plugin_ns doc_stem : String) : String :=
  "Error! " ++ stem ++ " not found in namespace " ++ plugin_ns ++
    " when attempting to read " ++ doc_stem ++ ".wic"

/-- ast.py line 101: the indentation hint for a mis-keyed `in` block. -/
def inTagHint (doc_stem : String) : String :=
  "\n(Check that you have properly indented the `in` tag in " ++ doc_stem ++ ")"

/-- ast.py lines 99-101: names the referring document, and adds the
indentation hint exactly when the unresolved stem is literally `in`. -/
def stemNotFoundMsg (stem plugin_ns doc_stem : String) : String :=
  stemNotFoundBase stem plugin_ns doc_stem ++
    (if stem = kIn then inTagHint doc_stem else "")

/-- ast.py line 106. -/
def badPathMsg (yaml_path : String) : String :=
  "Error! " ++ yaml_path ++ " does not exist or is not a .wic file."

/-! ## The AST loader -/

/-- Generic string-keyed association lookup (for the search-path tables
and the modelled filesystem). -/
def slookup {α : Type} : List (String × α) → String → Option α
  | [], _ => none
  | (k, v) :: rest, k' => if k = k' then some v else slookup rest k'

/-- `yml_paths.get(plugin_ns, {})`: absent namespaces yield the empty
table, which the loader then reports (a present-but-empty table triggers
the same diagnostic, faithfully to `if paths_ns_i == {}`). -/
def lookupNs (yml_paths : List (String × List (String × String))) (ns : String) :
    List (String × String) :=
  (slookup yml_paths ns).getD []

/-- `l[i] = v` on a Python list (callers establish `i` in range). -/
def listSet : List Yaml → Nat → Yaml → List Yaml
  | [], _, _ => []
  | _ :: rest, 0, v => v :: rest
  | x :: rest, i + 1, v => x :: listSet rest i v

/-- The loader's ambient inputs: `homedir`, the search-path table
`yml_paths`, the tool registry, the schema validator and its suppression
flag, and the filesystem (which the Python code reaches through `open` /
`yaml.load`), bundled into one record for readability. -/
structure LoadCfg where
  homedir : String
  yml_paths : List (String × List (String × String))
  fs : List (String × Yaml)
  tools : Tools
  validate : Yaml → Bool
  ignore_validation_errors : Bool

mutual

/-- `read_ast_from_disk` (ast.py lines 19-121): validates the document,
recursively expands every backend alternative if `wic.backends` is
declared, and otherwise resolves and inlines every non-leaf step as
`{subtree, parentargs}`. -/
def read_ast_from_disk (fuel : Nat) (cfg : LoadCfg) (t : YamlTree) :
    Except Err YamlTree :=
  match fuel with
  | 0 => .error .outOfFuel
  | fuel + 1 =>
    match t with
    | ⟨step_id, yaml_tree⟩ =>
      if !cfg.ignore_validation_errors && !cfg.validate yaml_tree then
        -- models the diagnostic-file write followed by sys.exit(1)
        .error (.validationFailed step_id.stem)
      else
        match yaml_tree with
        | .map _ =>
          let wicv := dGet yaml_tree kWic yEmpty
          match yGet wicv kBackends with
          | some backsv =>
            match backsv with
            | .map bs => do
                let plugin_ns := nsOfWic wicv
                let bts ← loadBackends fuel cfg plugin_ns bs
                pure ⟨step_id, ySet yaml_tree kWic (ySet wicv kBackends (.map bts))⟩
            | _ => .error .shapeError   -- .items() on a non-mapping
          | none =>
            match yGet yaml_tree kSteps with
            | some stepsv =>
              match stepsv with
              | .list steps => do
                let wic_steps := dGet wicv kSteps yEmpty
                let steps_keys := get_steps_keys steps
                let tools_stems := cfg.tools.map (fun st => st.1.stem)
                let subkeys := get_subkeys steps_keys tools_stems
                let steps2 ← loadSteps fuel cfg step_id wic_steps subkeys 0 steps steps_keys
                pure ⟨step_id, ySet yaml_tree kSteps (.list steps2)⟩
              | _ => .error .shapeError -- steps: not a sequence
            | none => .error .shapeError -- yaml_tree['steps'] raises KeyError
        | _ => .error .shapeError        -- .get on a non-mapping document

/-- The backends loop of `read_ast_from_disk` (ast.py lines 63-70): each
alternative is loaded independently, and the reassembled mapping is keyed
by the `StepId`s of the loaded trees (`dict(backends_trees)`).  Raw
parsed documents have string keys. -/
def loadBackends (fuel : Nat) (cfg : LoadCfg) (plugin_ns : String) :
    List (YKey × Yaml) → Except Err (List (YKey × Yaml))
  | [] => pure []
  | (k, back) :: rest =>
    match fuel with
    | 0 => .error .outOfFuel
    | fuel + 1 =>
      match k with
      | .str back_name => do
          let bt ← read_ast_from_disk fuel cfg ⟨⟨back_name, plugin_ns⟩, back⟩
          let bts ← loadBackends fuel cfg plugin_ns rest
          pure ((YKey.sid bt.step_id, bt.yml) :: bts)
      | .sid _ => .error .shapeError

/-- The step loop of `read_ast_from_disk` (ast.py lines 79-119),
traversing `steps_keys` with its enumeration index while updating the
`steps` list: leaf steps are left untouched; each non-leaf step is
resolved through the search paths, its file is parsed and recursively
loaded, and the step value becomes `{subtree, parentargs}`. -/
def loadSteps (fuel : Nat) (cfg : LoadCfg) (step_id : StepId) (wic_steps : Yaml)
    (subkeys : List String) (i : Nat) (steps : List Yaml) :
    List String → Except Err (List Yaml)
  | [] => pure steps
  | step_key :: rest =>
    match fuel with
    | 0 => .error .outOfFuel
    | fuel + 1 => do
      let steps2 ←
        if subkeys.contains step_key then
          let stem := pathStem step_key
          let plugin_ns := resolveStepNs wic_steps i step_key
          let paths_ns_i := lookupNs cfg.yml_paths plugin_ns
          if paths_ns_i.isEmpty then
            .error (.exc (nsNotFoundMsg plugin_ns))
          else
            match slookup paths_ns_i stem with
            | none => .error (.exc (stemNotFoundMsg stem plugin_ns step_id.stem))
            | some yaml_path =>
              match slookup cfg.fs yaml_path with
              | none => .error (.exc (badPathMsg yaml_path))  -- not yaml_path.exists()
              | some sub_yaml_tree_raw =>
                if pathSuffix yaml_path ≠ sWicExt then
                  .error (.exc (badPathMsg yaml_path))
                else do
                  let sub ← read_ast_from_disk fuel cfg
                    ⟨⟨step_key, plugin_ns⟩, sub_yaml_tree_raw⟩
                  match steps.get? i with
                  | none => .error .shapeError          -- steps[i]: IndexError
                  | some st =>
                    match st with
                    | .map kvs =>
                      match alookup kvs (.str step_key) with
                      | none => .error .shapeError      -- steps[i][step_key]: KeyError
                      | some v0 =>
                        let step_i_dict :=
                          match v0 with
                          | .null => yEmpty             -- {} if steps[i][step_key] is None
                          | _ => v0
                        let newv : Yaml :=
                          .map [(.str kSubtree, sub.yml), (.str kParentargs, step_i_dict)]
                        pure (listSet steps i (.map (aset kvs (.str step_key) newv)))
                    | _ => .error .shapeError
        else pure steps
      loadSteps fuel cfg step_id wic_steps subkeys (i + 1) steps2 rest

end

/-! ## The parameter merge engine -/

/-- `del d[k]` on a document known to be a mapping (used for the
`deepcopy` + `del clt_args['wic']` at ast.py lines 189-190). -/
def yDel (y : Yaml) (k : String) : Yaml :=
  match y with
  | .map kvs => .map (adel kvs (.str k))
  | _ => y

mutual

/-- `merge_yml_trees` (ast.py lines 124-201): merges the parent `wic:`
overrides into the document's own `wic:` block with
`Strategy.TYPESAFE_REPLACE` (parent wins), then recurses into backends or
steps; sub-workflow steps recurse into `subtree` with the per-step
override block as the new parent, and leaf steps have their argument
mapping merged with the (wic-stripped) per-step override arguments, the
override arguments winning. -/
def merge_yml_trees (fuel : Nat) (t : YamlTree) (wic_parent : Yaml) (tools : Tools) :
    Except Err YamlTree :=
  match fuel with
  | 0 => .error .outOfFuel
  | fuel + 1 =>
    match t with
    | ⟨step_id, yaml_tree⟩ =>
      match yaml_tree with
      | .map _ => do
        let wic_self : Yaml := .map [(.str kWic, dGet yaml_tree kWic yEmpty)]
        let wic ← deepmerge fuel wic_self wic_parent
        match yGet wic kWic with
        | none => .error .shapeError     -- unreachable: dst keys survive the merge
        | some wicw =>
          let yaml1 := ySet yaml_tree kWic wicw   -- yaml_tree['wic'] = wic['wic']
          let wic_steps := dGet wicw kSteps yEmpty
          match yGet wicw kBackends with
          | some backsv =>
            match backsv with
            | .map bs => do
                let bts ← mergeBackends fuel wic_parent tools bs
                pure ⟨step_id, ySet yaml1 kWic (ySet wicw kBackends (.map bts))⟩
            | _ => .error .shapeError
          | none =>
            match yGet yaml1 kSteps with
            | some stepsv =>
              match stepsv with
              | .list steps => do
                let steps_keys := get_steps_keys steps
                let tools_stems := tools.map (fun st => st.1.stem)
                let subkeys := get_subkeys steps_keys tools_stems
                let steps2 ← mergeSteps fuel step_id wic_steps tools subkeys 0 steps steps_keys
                pure ⟨step_id, ySet yaml1 kSteps (.list steps2)⟩
              | _ => .error .shapeError
            | none => .error .shapeError -- yaml_tree['steps'] raises KeyError
      | _ => .error .shapeError

/-- The backends loop of `merge_yml_trees` (ast.py lines 155-159); after
the loader pass the backends mapping is keyed by `StepId`s. -/
def mergeBackends (fuel : Nat) (wic_parent : Yaml) (tools : Tools) :
    List (YKey × Yaml) → Except Err (List (YKey × Yaml))
  | [] => pure []
  | (k, back) :: rest =>
    match fuel with
    | 0 => .error .outOfFuel
    | fuel + 1 =>
      match k with
      | .sid stepid => do
          let bt ← merge_yml_trees fuel ⟨stepid, back⟩ wic_parent tools
          let bts ← mergeBackends fuel wic_parent tools rest
          pure ((YKey.sid bt.step_id, bt.yml) :: bts)
      | .str _ => .error .shapeError

/-- The step loop of `merge_yml_trees` (ast.py lines 167-199). -/
def mergeSteps (fuel : Nat) (step_id : StepId) (wic_steps : Yaml) (tools : Tools)
    (subkeys : List String) (i : Nat) (steps : List Yaml) :
    List String → Except Err (List Yaml)
  | [] => pure steps
  | step_key :: rest =>
    match fuel with
    | 0 => .error .outOfFuel
    | fuel + 1 => do
      let steps2 ←
        match steps.get? i with
        | none => .error .shapeError             -- steps[i]: IndexError
        | some st =>
          match st with
          | .map kvs =>
            match alookup kvs (.str step_key) with
            | none => .error .shapeError         -- steps[i][step_key]: KeyError
            | some v0 =>
              if subkeys.contains step_key then
                match yGet v0 kSubtree with
                | none => .error .shapeError     -- ['subtree']: KeyError
                | some sub_initial => do
                  let sub_wic := dGet wic_steps (stepPosKey i step_key) yEmpty
                  let merged ← merge_yml_trees fuel
                    ⟨⟨step_key, step_id.plugin_ns⟩, sub_initial⟩ sub_wic tools
                  pure (listSet steps i
                    (.map (aset kvs (.str step_key) (ySet v0 kSubtree merged.yml))))
              else do
                let clt_args0 := dGet wic_steps (stepPosKey i step_key) yEmpty
                -- deepcopy then del clt_args['wic'], when present
                let clt_args :=
                  if (yGet clt_args0 kWic).isSome then yDel clt_args0 kWic else clt_args0
                let args_provided_dict_self := if yTruthy v0 then v0 else yEmpty
                let args_provided_dict ← deepmerge fuel args_provided_dict_self clt_args
                pure (listSet steps i (.map (aset kvs (.str step_key) args_provided_dict)))
          | _ => .error .shapeError
      mergeSteps fuel step_id wic_steps tools subkeys (i + 1) steps2 rest

end

/-! ## The forest builder -/

mutual

/-- `tree_to_forest` (ast.py lines 204-243): read-only traversal
producing the root tree plus one child forest per backend alternative, or
one child forest per resolved sub-workflow step, in order. -/
def tree_to_forest (fuel : Nat) (t : YamlTree) (tools : Tools) :
    Except Err YamlForest :=
  match fuel with
  | 0 => .error .outOfFuel
  | fuel + 1 =>
    match t with
    | ⟨step_id, yaml_tree⟩ =>
      match yaml_tree with
      | .map _ =>
        let wicv := dGet yaml_tree kWic yEmpty
        match yGet wicv kBackends with
        | some backsv =>
          match backsv with
          | .map bs => do
              let children ← forestBackends fuel tools bs
              pure (.mk ⟨step_id, yaml_tree⟩ children)
          | _ => .error .shapeError
        | none =>
          match yGet yaml_tree kSteps with
          | some stepsv =>
            match stepsv with
            | .list steps => do
              let wic_steps := dGet wicv kSteps yEmpty
              let steps_keys := get_steps_keys steps
              let tools_stems := tools.map (fun st => st.1.stem)
              let subkeys := get_subkeys steps_keys tools_stems
              let children ← forestSteps fuel tools wic_steps subkeys 0 steps steps_keys
              pure (.mk ⟨step_id, yaml_tree⟩ children)
            | _ => .error .shapeError
          | none => .error .shapeError
      | _ => .error .shapeError

/-- The backends loop of `tree_to_forest` (ast.py lines 218-222). -/
def forestBackends (fuel : Nat) (tools : Tools) :
    List (YKey × Yaml) → Except Err (List (StepId × YamlForest))
  | [] => pure []
  | (k, back) :: rest =>
    match fuel with
    | 0 => .error .outOfFuel
    | fuel + 1 =>
      match k with
      | .sid stepid => do
          let f ← tree_to_forest fuel ⟨stepid, back⟩ tools
          let tailf ← forestBackends fuel tools rest
          pure ((stepid, f) :: tailf)
      | .str _ => .error .shapeError

/-- The step loop of `tree_to_forest` (ast.py lines 232-241): leaf steps
contribute no children; each sub-workflow step contributes the forest of
its `subtree`, keyed by the sub-forest root's `StepId`. -/
def forestSteps (fuel : Nat) (tools : Tools) (wic_steps : Yaml)
    (subkeys : List String) (i : Nat) (steps : List Yaml) :
    List String → Except Err (List (StepId × YamlForest))
  | [] => pure []
  | step_key :: rest =>
    match fuel with
    | 0 => .error .outOfFuel
    | fuel + 1 => do
      let head ←
        if subkeys.contains step_key then
          let plugin_ns_i := resolveStepNs wic_steps i step_key
          match steps.get? i with
          | none => .error .shapeError
          | some st =>
            match st with
            | .map kvs =>
              match alookup kvs (.str step_key) with
              | none => .error .shapeError
              | some v0 =>
                match yGet v0 kSubtree with
                | none => .error .shapeError
                | some sub_yaml_tree => do
                  let sub_yml_forest ← tree_to_forest fuel
                    ⟨⟨step_key, plugin_ns_i⟩, sub_yaml_tree⟩ tools
                  pure [(sub_yml_forest.yaml_tree.step_id, sub_yml_forest)]
            | _ => .error .shapeError
        else pure ([] : List (StepId × YamlForest))
      let tailf ← forestSteps fuel tools wic_steps subkeys (i + 1) steps rest
      pure (head ++ tailf)

end

/-! ## The inline-script tool synthesizer -/

/-- External collaborators of `python_script_generate_cwl`, modelled from
the spec: `python_cwl_adapter.get_module` ("dynamically load it as a
module, and read two externally-declared lists of port descriptors
(`inputs`, `outputs`)") and
`python_cwl_adapter.generate_CWL_CommandLineTool` ("synthesize a
primitive tool definition from those ports plus the optional container
image"), both outside src/, plus `uuid.uuid4` rendered as a supply of
fresh strings indexed by how many uuids have been drawn so far. -/
structure SynthEnv where
  get_module : String → String → Yaml → Yaml × Yaml
  generate_cwl : Yaml → Yaml → Yaml → Yaml
  uuid : Nat → String

/-- The mutable context of the synthesizer pass: the tool registry
(mutated in place by the Python code), the files written under
`autogenerated/`, and the uuid draw counter. -/
structure SynthState where
  tools : Tools
  files : List (String × Yaml)
  nextUuid : Nat

/-- Python dict assignment `tools[step_id_] = tool_i`. -/
def toolsUpdate : Tools → StepId → Tool → Tools
  | [], k', v' => [(k', v')]
  | (k, v) :: rest, k', v' =>
    if k = k' then (k, v') :: rest else (k, v) :: toolsUpdate rest k' v'

def sEmpty : String := ""

/-- One level of `wic_inline_input` unwrapping (ast.py lines 289-290 and
294-295): applied only when the value is a mapping carrying that key. -/
def unwrapInline (v : Yaml) : Yaml :=
  match yGet v kInlineInput with
  | some w => w
  | none => v

/-- The leaf `python_script` rewrite (ast.py lines 285-319): reads the
step's `in` arguments, takes a private deep copy, removes `script` from
the copy and `dockerPull` from both the copy and the live step, minted a
fresh `python_script_<uuid>` identity in the `"global"` namespace,
records the generated CWL under `autogenerated/`, rewrites the step to
its minted key, and inserts the new tool into the registry. -/
def synthPSStep (env : SynthEnv) (root_yml_dir_abs : String) (st : SynthState)
    (steps : List Yaml) (i : Nat) : Except Err (List Yaml × SynthState) :=
  match steps.get? i with
  | none => .error .shapeError
  | some stepm =>
    match stepm with
    | .map kvs =>
      match alookup kvs (.str kPythonScript) with
      | none => .error .shapeError
      | some v0 =>
        match yGet v0 kIn with
        | none => .error .shapeError          -- steps[i]['python_script']['in']
        | some inArgs =>
          match inArgs with
          | .map inkvs =>
            let python_script_path :=
              unwrapInline ((alookup inkvs (.str kScript)).getD (.str sEmpty))
            if ¬ hasK inkvs kScript then
              .error .shapeError              -- del yml_args['script']: KeyError
            else
              let yml_args1 := adel inkvs (.str kScript)
              let python_script_docker_pull :=
                unwrapInline ((alookup yml_args1 (.str kDockerPull)).getD (.str sEmpty))
              let hasDP := (alookup yml_args1 (.str kDockerPull)).isSome
              let yml_args2 := if hasDP then adel yml_args1 (.str kDockerPull) else yml_args1
              -- del steps[i][step_key]['in']['dockerPull'] (the live step;
              -- note that `script` is deleted only from the private copy)
              let inArgs2 : Yaml :=
                if hasDP then .map (adel inkvs (.str kDockerPull)) else inArgs
              match python_script_path with
              | .str spath =>
                let full_path := root_yml_dir_abs ++ "/" ++ spath
                let python_script_mod := (pathName full_path).dropRight 3
                let mod := env.get_module python_script_mod full_path (.map yml_args2)
                let generated_cwl := env.generate_cwl mod.1 mod.2 python_script_docker_pull
                let unique_id := sPSMinted ++ env.uuid st.nextUuid
                let filepath := sAutogen ++ unique_id ++ sCwlExt
                let v1 := ySet v0 kIn inArgs2
                let steps2 := listSet steps i (.map [(.str unique_id, v1)])
                let tool_i : Tool := ⟨filepath, generated_cwl⟩
                pure (steps2,
                  { tools := toolsUpdate st.tools ⟨unique_id, sGlobal⟩ tool_i,
                    files := st.files ++ [(filepath, generated_cwl)],
                    nextUuid := st.nextUuid + 1 })
              | _ => .error .shapeError       -- Path() on a non-string script value
          | _ => .error .shapeError
    | _ => .error .shapeError

mutual

/-- `python_script_generate_cwl` (ast.py lines 246-321): recurses through
backends and sub-workflow subtrees, and rewrites every leaf step keyed by
the reserved marker `python_script` via `synthPSStep`, threading the tool
registry, the written files and the uuid counter. -/
def python_script_generate_cwl (fuel : Nat) (env : SynthEnv) (t : YamlTree)
    (root_yml_dir_abs : String) (st : SynthState) :
    Except Err (YamlTree × SynthState) :=
  match fuel with
  | 0 => .error .outOfFuel
  | fuel + 1 =>
    match t with
    | ⟨step_id, yaml_tree⟩ =>
      match yaml_tree with
      | .map _ =>
        let wicv := dGet yaml_tree kWic yEmpty
        match yGet wicv kBackends with
        | some backsv =>
          match backsv with
          | .map bs => do
              let bst ← synthBackends fuel env root_yml_dir_abs st bs
              pure (⟨step_id, ySet yaml_tree kWic (ySet wicv kBackends (.map bst.1))⟩,
                bst.2)
          | _ => .error .shapeError
        | none =>
          match yGet yaml_tree kSteps with
          | some stepsv =>
            match stepsv with
            | .list steps => do
              let steps_keys := get_steps_keys steps
              let tools_stems := st.tools.map (fun s => s.1.stem)
              let subkeys := get_subkeys steps_keys tools_stems
              let sst ← synthSteps fuel env root_yml_dir_abs step_id subkeys 0 steps st
                steps_keys
              pure (⟨step_id, ySet yaml_tree kSteps (.list sst.1)⟩, sst.2)
            | _ => .error .shapeError
          | none => .error .shapeError
      | _ => .error .shapeError

/-- The backends loop of `python_script_generate_cwl` (ast.py lines
265-269). -/
def synthBackends (fuel : Nat) (env : SynthEnv) (root_yml_dir_abs : String)
    (st : SynthState) :
    List (YKey × Yaml) → Except Err (List (YKey × Yaml) × SynthState)
  | [] => pure ([], st)
  | (k, back) :: rest =>
    match fuel with
    | 0 => .error .outOfFuel
    | fuel + 1 =>
      match k with
      | .sid stepid => do
          let bst ← python_script_generate_cwl fuel env ⟨stepid, back⟩ root_yml_dir_abs st
          let rst ← synthBackends fuel env root_yml_dir_abs bst.2 rest
          pure ((YKey.sid bst.1.step_id, bst.1.yml) :: rst.1, rst.2)
      | .str _ => .error .shapeError

/-- The step loop of `python_script_generate_cwl` (ast.py lines
277-319). -/
def synthSteps (fuel : Nat) (env : SynthEnv) (root_yml_dir_abs : String)
    (step_id : StepId) (subkeys : List String) (i : Nat) (steps : List Yaml)
    (st : SynthState) :
    List String → Except Err (List Yaml × SynthState)
  | [] => pure (steps, st)
  | step_key :: rest =>
    match fuel with
    | 0 => .error .outOfFuel
    | fuel + 1 => do
      let acc ←
        if subkeys.contains step_key then
          match steps.get? i with
          | none => .error .shapeError
          | some stv =>
            match stv with
            | .map kvs =>
              match alookup kvs (.str step_key) with
              | none => .error .shapeError
              | some v0 =>
                match yGet v0 kSubtree with
                | none => .error .shapeError
                | some sub_initial => do
                  let bst ← python_script_generate_cwl fuel env
                    ⟨⟨step_key, step_id.plugin_ns⟩, sub_initial⟩ root_yml_dir_abs st
                  pure (listSet steps i
                      (.map (aset kvs (.str step_key) (ySet v0 kSubtree bst.1.yml))),
                    bst.2)
            | _ => .error .shapeError
        else
          if step_key = kPythonScript then synthPSStep env root_yml_dir_abs st steps i
          else pure (steps, st)
      synthSteps fuel env root_yml_dir_abs step_id subkeys (i + 1) acc.1 acc.2 rest

end

/-! ## Concrete fixtures used by witnesses and counterexamples -/

def sRoot : String := "root"
def sA : String := "stepA"
def sSub : String := "subwf"
def sX : String := "x"
def sCustom : String := "custom"
def sBk : String := "b"
def sFoo : String := "foo.py"
def sImg : String := "img"
def sU : String := "u"

/-- A minimal schema-conformant document: an empty step sequence. -/
def trivDoc : Yaml := .map [(.str kSteps, .list [])]

def trivTree : YamlTree := ⟨⟨sRoot, sGlobal⟩, trivDoc⟩

/-- A loader configuration with empty search paths, an empty filesystem,
no tools and an always-accepting validator. -/
def trivCfg : LoadCfg :=
  { homedir := sEmpty
    yml_paths := []
    fs := []
    tools := []
    validate := fun _ => true
    ignore_validation_errors := false }

/-- `trivDoc` after the merge pass: the merged (empty) `wic:` block is
added as a top-level tag. -/
def trivMerged : Yaml := .map [(.str kSteps, .list []), (.str kWic, .map [])]

/-- A deterministic stand-in for the synthesizer's externals: the uuid
supply returns `u<n>` for the `n`-th draw. -/
def demoSynthEnv : SynthEnv :=
  { get_module := fun _ _ _ => (yEmpty, yEmpty)
    generate_cwl := fun _ _ _ => yEmpty
    uuid := fun n => sU ++ toString n }

def trivSynthState : SynthState := ⟨[], [], 0⟩

/-- A registry that already knows a `python_script` stem, so that
`python_script` step keys are classified as leaves by `get_subkeys`. -/
def psTools : Tools := [(⟨kPythonScript, sGlobal⟩, ⟨sEmpty, yEmpty⟩)]

/-- One inline-script step carrying `script`, `dockerPull` and one
ordinary argument. -/
def psDoc : Yaml := .map
  [(.str kSteps, .list
      [.map [(.str kPythonScript, .map [(.str kIn, .map
          [(.str kScript, .str sFoo),
           (.str kDockerPull, .str sImg),
           (.str sX, .int 1)])])]])]

/-- A document declaring two backend alternatives and no processed
steps, as loaded from disk (StepId-keyed backends). -/
def backDoc : Yaml := .map [(.str kSteps, .list [])]

def c8Doc : Yaml := .map
  [(.str kWic, .map [(.str kBackends, .map [(.str sBk, backDoc)])]),
   (.str kSteps, .list [])]

def sY : String := "y"
def kX : YKey := .str sX
def kY : YKey := .str sY

def rootId : StepId := ⟨sRoot, sGlobal⟩
def sPathSub : String := "subwf.wic"
def c6Steps : List Yaml := [.map [(.str sSub, .null)]]
def c6Doc : Yaml := .map [(.str kSteps, .list c6Steps)]
def c6CfgStem : LoadCfg :=
  { trivCfg with yml_paths := [(sGlobal, [(sA, sPathSub)])] }
def c6CfgPath : LoadCfg :=
  { trivCfg with yml_paths := [(sGlobal, [(sSub, sPathSub)])] }

def sW : String := "w"
def sFast : String := "fast"
def sAcc : String := "accurate"

def demoTools : Tools := [(⟨sA, sGlobal⟩, ⟨sEmpty, yEmpty⟩)]
def subDoc : Yaml := .map [(.str kSteps, .list [.map [(.str sA, .map [(.str sX, .int 0)])]])]
def demoCfg : LoadCfg :=
  { homedir := sEmpty
    yml_paths := [(sGlobal, [(sSub, sPathSub)])]
    fs := [(sPathSub, subDoc)]
    tools := demoTools
    validate := fun _ => true
    ignore_validation_errors := false }

def loadedSubStep : Yaml :=
  .map [(.str sSub, .map [(.str kSubtree, subDoc), (.str kParentargs, yEmpty)])]
def c9ForestOut : List (StepId × YamlForest) :=
  [(⟨sSub, sGlobal⟩, .mk ⟨⟨sSub, sGlobal⟩, subDoc⟩ [])]

def c8Loaded : Yaml := .map
  [(.str kWic, .map [(.str kBackends, .map [(.sid ⟨sBk, sGlobal⟩, backDoc)])]),
   (.str kSteps, .list [])]

def c3Backs : List (YKey × Yaml) := [(.str sFast, backDoc), (.str sAcc, backDoc)]
def c3Kvs : List (YKey × Yaml) :=
  [(.str kWic, .map [(.str kBackends, .map c3Backs)]), (.str kSteps, .list [])]
def c3Doc : Yaml := .map c3Kvs
def c3BacksLoaded : List (YKey × Yaml) :=
  [(.sid ⟨sFast, sGlobal⟩, backDoc), (.sid ⟨sAcc, sGlobal⟩, backDoc)]
def c3LoadedKvs : List (YKey × Yaml) :=
  [(.str kWic, .map [(.str kBackends, .map c3BacksLoaded)]), (.str kSteps, .list [])]
def c3Loaded : Yaml := .map c3LoadedKvs
def c3Children : List (StepId × YamlForest) :=
  [(⟨sFast, sGlobal⟩, .mk ⟨⟨sFast, sGlobal⟩, backDoc⟩ []),
   (⟨sAcc, sGlobal⟩, .mk ⟨⟨sAcc, sGlobal⟩, backDoc⟩ [])]

/-- One backend alternative, as the loader resolves it: a string-keyed
raw alternative becomes a `StepId`-keyed, recursively loaded tree under
the namespace `ns`. -/
def BackLoaded (cfg : LoadCfg) (ns : String) (kb ko : YKey × Yaml) : Prop :=
  ∃ name bt f, kb.1 = .str name ∧
    read_ast_from_disk f cfg ⟨⟨name, ns⟩, kb.2⟩ = .ok bt ∧
    ko = (.sid bt.step_id, bt.yml)

/-- One backend alternative, as the forest builder expands it: a
`StepId`-keyed alternative becomes one child forest under that same
`StepId`. -/
def BackForest (tools : Tools) (kb : YKey × Yaml) (c : StepId × YamlForest) : Prop :=
  ∃ sid2 ff fl, kb.1 = .sid sid2 ∧ tree_to_forest fl ⟨sid2, kb.2⟩ tools = .ok ff ∧
    c = (sid2, ff)

def psMinted : String := sPSMinted ++ sU ++ toString 0
def psFile : String := sAutogen ++ psMinted ++ sCwlExt
def psOutIn : Yaml := .map [(.str kScript, .str sFoo), (.str sX, .int 1)]
def psOutVal : Yaml := .map [(.str kIn, psOutIn)]
def psDocOut : Yaml := .map [(.str kSteps, .list [.map [(.str psMinted, psOutVal)]])]
def psStOut : SynthState :=
  ⟨toolsUpdate psTools ⟨psMinted, sGlobal⟩ ⟨psFile, yEmpty⟩, [(psFile, yEmpty)], 1⟩

def psInKvs : List (YKey × Yaml) :=
  [(.str kScript, .str sFoo), (.str kDockerPull, .str sImg), (.str sX, .int 1)]
def psStepVal : Yaml := .map [(.str kIn, .map psInKvs)]
def psStepKvs : List (YKey × Yaml) := [(.str kPythonScript, psStepVal)]
def psSteps : List Yaml := [.map psStepKvs]

/-- Path lookup through nested mappings. -/
def getPath : Yaml → List YKey → Option Yaml
  | y, [] => some y
  | .map kvs, k :: ks =>
    (match alookup kvs k with
     | some v => getPath v ks
     | none => none)
  | _, _ :: _ => none

/-- Python dicts at every nesting level have pairwise-distinct keys; this
well-formedness predicate carries that fact into the association-list
model. -/
inductive NodupDeep : Yaml → Prop where
  | of_scalar (y : Yaml) (h : y.isMap = false) : NodupDeep y
  | of_map (kvs : List (YKey × Yaml)) (hnd : (kvs.map Prod.fst).Nodup)
      (hall : ∀ kv ∈ kvs, NodupDeep kv.2) : NodupDeep (.map kvs)

/-- The relation between the value at a key in the destination, the
value at that key in the source, and the value at that key in a
successful `TYPESAFE_REPLACE` merge: an absent destination key takes the
source value, two mappings merge recursively, and otherwise the source
value replaces a destination value of the same runtime kind. -/
def LookupMerged (dvo : Option Yaml) (sv : Yaml) (ro : Option Yaml) : Prop :=
  match dvo with
  | none => ro = some sv
  | some dv =>
    (∃ dm sm rm fm, dv = .map dm ∧ sv = .map sm ∧ mergeList fm dm sm = .ok rm ∧
      ro = some (.map rm)) ∨
    (sameKind dv sv = true ∧ dv.isMap = false ∧ sv.isMap = false ∧ ro = some sv)

/-- A schema-conformant raw step value: absent (`null`) or a flat
tool-argument mapping that does not use the reserved `subtree` /
`parentargs` keys. -/
def RawVal (v : Yaml) : Prop :=
  v = .null ∨ ∃ kvs, v = .map kvs ∧ hasK kvs kSubtree = false ∧ hasK kvs kParentargs = false

/-- A schema-conformant raw document, as parsed from disk: backend
alternatives (inline sub-documents) are recursively conformant, and every
step value is a `RawVal`. -/
inductive RawDoc : Yaml → Prop where
  | mk (kvs : List (YKey × Yaml))
      (hbacks : ∀ bs, yGet (dGet (.map kvs) kWic yEmpty) kBackends = some (.map bs) →
        ∀ kv ∈ bs, RawDoc kv.2)
      (hsteps : ∀ ss, yGet (.map kvs) kSteps = some (.list ss) →
        ∀ s ∈ ss, ∃ skvs, s = .map skvs ∧ ∀ kv ∈ skvs, RawVal kv.2) :
      RawDoc (.map kvs)

mutual

/-- The tri-state invariant on loaded documents: every backend
alternative satisfies it recursively, and every step value is `null`, a
flat mapping without the reserved keys, or exactly the two-key
`{subtree, parentargs}` mapping with a conformant subtree and a mapping
`parentargs`. -/
inductive TriDoc : Yaml → Prop where
  | mk (kvs : List (YKey × Yaml))
      (hbacks : ∀ bs, yGet (dGet (.map kvs) kWic yEmpty) kBackends = some (.map bs) →
        TriBacks bs)
      (hsteps : ∀ ss, yGet (.map kvs) kSteps = some (.list ss) → TriSteps ss) :
      TriDoc (.map kvs)

/-- Every backend alternative satisfies the tri-state invariant. -/
inductive TriBacks : List (YKey × Yaml) → Prop where
  | nil : TriBacks []
  | cons (k : YKey) (v : Yaml) (rest : List (YKey × Yaml)) (h : TriDoc v)
      (ht : TriBacks rest) : TriBacks ((k, v) :: rest)

/-- Every step entry is a mapping whose values satisfy `TriVal`. -/
inductive TriSteps : List Yaml → Prop where
  | nil : TriSteps []
  | cons (skvs : List (YKey × Yaml)) (rest : List Yaml) (h : TriV skvs)
      (ht : TriSteps rest) : TriSteps (.map skvs :: rest)

/-- Every value of a step mapping satisfies `TriVal`. -/
inductive TriV : List (YKey × Yaml) → Prop where
  | nil : TriV []
  | cons (k : YKey) (v : Yaml) (rest : List (YKey × Yaml)) (h : TriVal v)
      (ht : TriV rest) : TriV ((k, v) :: rest)

/-- The three permitted step-value shapes after the Loader pass. -/
inductive TriVal : Yaml → Prop where
  | null : TriVal .null
  | flat (kvs : List (YKey × Yaml)) (h1 : hasK kvs kSubtree = false)
      (h2 : hasK kvs kParentargs = false) : TriVal (.map kvs)
  | subw (sub : Yaml) (pm : List (YKey × Yaml)) (hsub : TriDoc sub) :
      TriVal (.map [(.str kSubtree, sub), (.str kParentargs, .map pm)])

end

theorem RawVal.triVal {v : Yaml} (h : RawVal v) : TriVal v := by
  rcases h with rfl | ⟨kvs, rfl, h1, h2⟩
  · exact .null
  · exact .flat kvs h1 h2


/-- All filesystem contents are schema-conformant raw documents. -/
def FsRaw (cfg : LoadCfg) : Prop :=
  ∀ p y, (p, y) ∈ cfg.fs → RawDoc y

def c2Loaded : Yaml := .map [(.str kSteps, .list [loadedSubStep])]

/-! ## The synthesizer-uniqueness invariants (claim C4) -/

/-- View of the tools registry at its underlying list type. -/
def toolsL (ts : Tools) : List (StepId × Tool) := ts

/-- The stems of the registered tools (`tools_stems` in ast.py). -/
def stemsOf (ts : Tools) : List String := (toolsL ts).map (fun kv => kv.1.stem)

/-- Names of the form `python_script_<uuid>` minted by the synthesizer. -/
def isMintedName (k : String) : Prop := ∃ u, k = sPSMinted ++ u

/-- The identity minted for the `j`-th uuid draw. -/
def mintedKey (env : SynthEnv) (j : Nat) : StepId := ⟨sPSMinted ++ env.uuid j, sGlobal⟩

/-- The uuid supply never repeats (spec §5: "UUID-based keys guarantee no
collision"). -/
def UuidInj (env : SynthEnv) : Prop := ∀ a b, env.uuid a = env.uuid b → a = b

/-- The registry's stems agree with the reference stem set `S` on every
non-minted name; minted insertions never disturb this. -/
def StemsCompat (S : List String) (ts : Tools) : Prop :=
  ∀ k : String, ¬ isMintedName k → (stemsOf ts).contains k = S.contains k

/-- Every registry stem is either a pre-existing non-minted name or a
name minted by a uuid draw that has already happened. -/
def ToolsInv (env : SynthEnv) (st : SynthState) : Prop :=
  ∀ kv ∈ toolsL st.tools, ¬ isMintedName kv.1.stem ∨
    ∃ j, j < st.nextUuid ∧ kv.1.stem = sPSMinted ++ env.uuid j

mutual

/-- `SCDoc S y K`: the document `y` is in the shape the synthesizer
traverses — single-key steps, inline-script steps classified as leaves
(`python_script ∈ S`), no document step key that looks minted unless it
is a registered stem — and contains exactly `K` inline-script steps. -/
inductive SCDoc (S : List String) : Yaml → Nat → Prop where
  | backs (kvs bs : List (YKey × Yaml)) (n : Nat)
      (hb : yGet (dGet (.map kvs) kWic yEmpty) kBackends = some (.map bs))
      (hl : SCBacks S bs n) : SCDoc S (.map kvs) n
  | steps (kvs : List (YKey × Yaml)) (ss : List Yaml) (n : Nat)
      (hb : yGet (dGet (.map kvs) kWic yEmpty) kBackends = none)
      (hs : yGet (.map kvs) kSteps = some (.list ss))
      (hl : SCSteps S ss n) : SCDoc S (.map kvs) n

/-- Inline-script step count across backend alternatives. -/
inductive SCBacks (S : List String) : List (YKey × Yaml) → Nat → Prop where
  | nil : SCBacks S [] 0
  | cons (k : YKey) (b : Yaml) (rest : List (YKey × Yaml)) (n m : Nat)
      (hd : SCDoc S b n) (ht : SCBacks S rest m) : SCBacks S ((k, b) :: rest) (n + m)

/-- Inline-script step count across a steps sequence. -/
inductive SCSteps (S : List String) : List Yaml → Nat → Prop where
  | nil : SCSteps S [] 0
  | leafPS (v : Yaml) (rest : List Yaml) (n : Nat)
      (hin : S.contains kPythonScript = true)
      (hnosub : yGet v kSubtree = none)
      (ht : SCSteps S rest n) :
      SCSteps S (.map [(.str kPythonScript, v)] :: rest) (n + 1)
  | leaf (k : String) (v : Yaml) (rest : List Yaml) (n : Nat)
      (hk : S.contains k = true) (hne : ¬ k = kPythonScript)
      (hnm : ¬ isMintedName k)
      (hnosub : yGet v kSubtree = none)
      (ht : SCSteps S rest n) :
      SCSteps S (.map [(.str k, v)] :: rest) n
  | sub (k : String) (v sub : Yaml) (rest : List Yaml) (n m : Nat)
      (hk : S.contains k = false) (hne : ¬ k = kPythonScript)
      (hnm : ¬ isMintedName k)
      (hsub : yGet v kSubtree = some sub)
      (hd : SCDoc S sub n) (ht : SCSteps S rest m) :
      SCSteps S (.map [(.str k, v)] :: rest) (n + m)

end

mutual

/-- No step key anywhere in the document is `python_script`. -/
inductive NPDoc : Yaml → Prop where
  | backs (kvs bs : List (YKey × Yaml))
      (hb : yGet (dGet (.map kvs) kWic yEmpty) kBackends = some (.map bs))
      (hl : NPBacks bs) : NPDoc (.map kvs)
  | steps (kvs : List (YKey × Yaml)) (ss : List Yaml)
      (hb : yGet (dGet (.map kvs) kWic yEmpty) kBackends = none)
      (hs : yGet (.map kvs) kSteps = some (.list ss))
      (hl : NPSteps ss) : NPDoc (.map kvs)

inductive NPBacks : List (YKey × Yaml) → Prop where
  | nil : NPBacks []
  | cons (k : YKey) (b : Yaml) (rest : List (YKey × Yaml)) (hd : NPDoc b)
      (ht : NPBacks rest) : NPBacks ((k, b) :: rest)

inductive NPSteps : List Yaml → Prop where
  | nil : NPSteps []
  | leaf (k : YKey) (v : Yaml) (rest : List Yaml)
      (hne : ¬ k = .str kPythonScript)
      (hnosub : yGet v kSubtree = none)
      (ht : NPSteps rest) : NPSteps (.map [(k, v)] :: rest)
  | sub (k : YKey) (v sub : Yaml) (rest : List Yaml)
      (hne : ¬ k = .str kPythonScript)
      (hsub : yGet v kSubtree = some sub)
      (hd : NPDoc sub)
      (ht : NPSteps rest) : NPSteps (.map [(k, v)] :: rest)

end

mutual

/-- `RWDoc env j0 y K y'`: the synthesizer's in-place rewrite of the
document `y` into `y'`, given that the uuid draws consumed by this
subtree are `j0, j0 + 1, ..., j0 + K - 1` in traversal order: backends
and step positions are preserved one for one, every step keyed
`python_script` is replaced at its position by a single-key step whose
key is the minted name `python_script_<uuid>` of the corresponding draw,
every other leaf step is kept verbatim, and a sub-workflow step keeps
its key with only its `subtree` value rewritten. -/
inductive RWDoc (env : SynthEnv) : Nat → Yaml → Nat → Yaml → Prop where
  | backs (j0 : Nat) (kvs bs bs2 : List (YKey × Yaml)) (K : Nat)
      (hb : yGet (dGet (.map kvs) kWic yEmpty) kBackends = some (.map bs))
      (hl : RWBacks env j0 bs K bs2) :
      RWDoc env j0 (.map kvs) K
        (ySet (.map kvs) kWic (ySet (dGet (.map kvs) kWic yEmpty) kBackends (.map bs2)))
  | steps (j0 : Nat) (kvs : List (YKey × Yaml)) (ss ss2 : List Yaml) (K : Nat)
      (hb : yGet (dGet (.map kvs) kWic yEmpty) kBackends = none)
      (hs : yGet (.map kvs) kSteps = some (.list ss))
      (hl : RWSteps env j0 ss K ss2) :
      RWDoc env j0 (.map kvs) K (ySet (.map kvs) kSteps (.list ss2))

/-- The in-place rewrite across backend alternatives, threading the uuid
draw counter left to right. -/
inductive RWBacks (env : SynthEnv) : Nat → List (YKey × Yaml) → Nat → List (YKey × Yaml) → Prop where
  | nil (j0 : Nat) : RWBacks env j0 [] 0 []
  | cons (j0 : Nat) (sid2 : StepId) (b b2 : Yaml) (rest rest2 : List (YKey × Yaml)) (n m : Nat)
      (hd : RWDoc env j0 b n b2) (ht : RWBacks env (j0 + n) rest m rest2) :
      RWBacks env j0 ((.sid sid2, b) :: rest) (n + m) ((.sid sid2, b2) :: rest2)

/-- The in-place rewrite across a steps sequence: the `python_script`
step consuming draw `j0` is rewritten at its position to the minted key
`python_script_<uuid j0>`; other steps keep their keys and positions. -/
inductive RWSteps (env : SynthEnv) : Nat → List Yaml → Nat → List Yaml → Prop where
  | nil (j0 : Nat) : RWSteps env j0 [] 0 []
  | leafPS (j0 : Nat) (v v1 : Yaml) (rest rest2 : List Yaml) (n : Nat)
      (ht : RWSteps env (j0 + 1) rest n rest2) :
      RWSteps env j0 (.map [(.str kPythonScript, v)] :: rest) (n + 1)
        (.map [(.str (sPSMinted ++ env.uuid j0), v1)] :: rest2)
  | leaf (j0 : Nat) (k : String) (v : Yaml) (rest rest2 : List Yaml) (n : Nat)
      (hne : ¬ k = kPythonScript)
      (ht : RWSteps env j0 rest n rest2) :
      RWSteps env j0 (.map [(.str k, v)] :: rest) n (.map [(.str k, v)] :: rest2)
  | sub (j0 : Nat) (k : String) (v sub sub2 : Yaml) (rest rest2 : List Yaml) (n m : Nat)
      (hne : ¬ k = kPythonScript)
      (hsub : yGet v kSubtree = some sub)
      (hd : RWDoc env j0 sub n sub2)
      (ht : RWSteps env (j0 + n) rest m rest2) :
      RWSteps env j0 (.map [(.str k, v)] :: rest) (n + m)
        (.map [(.str k, ySet v kSubtree sub2)] :: rest2)

end

/-- The synthesizer's effect on the shared state: `K` new entries
appended to the registry, one definition file written per entry, and `K`
uuid draws, the `j`-th new key being `python_script_<uuid j>` in the
`"global"` namespace. -/
def SynthOut (env : SynthEnv) (st st' : SynthState) (K : Nat) : Prop :=
  ∃ news : List (StepId × Tool),
    toolsL st'.tools = toolsL st.tools ++ news ∧
    st'.files = st.files ++ news.map (fun kv => (kv.2.run_path, kv.2.cwl)) ∧
    st'.nextUuid = st.nextUuid + K ∧
    news.map (fun kv => kv.1)
      = (List.range K).map (fun j => mintedKey env (st.nextUuid + j)) ∧
    (∀ kv ∈ news, kv.2.run_path = sAutogen ++ kv.1.stem ++ sCwlExt)

/-- A synthesizer environment whose uuid supply is visibly injective:
the `n`-th draw is a run of `n` copies of `u`. -/
def c4Env : SynthEnv :=
  { get_module := fun _ _ _ => (yEmpty, yEmpty)
    generate_cwl := fun _ _ _ => yEmpty
    uuid := fun n => String.mk (List.replicate n 'u') }

def c4Start : SynthState := ⟨psTools, [], 0⟩

def c4Minted : String := sPSMinted ++ String.mk (List.replicate 0 'u')

def c4File : String := sAutogen ++ c4Minted ++ sCwlExt

/-- `psDoc` after the synthesizer pass under `c4Env`. -/
def c4DocOut : Yaml := .map [(.str kSteps, .list [.map [(.str c4Minted, psOutVal)]])]

def c4StOut : SynthState :=
  ⟨toolsL psTools ++ [(⟨c4Minted, sGlobal⟩, ⟨c4File, yEmpty⟩)], [(c4File, yEmpty)], 1⟩

/-! ## Generic lemmas about the embedding -/

theorem exBind_ok {α β : Type} {e : Except Err α} {f : α → Except Err β} {b : β}
    (h : (e >>= f) = .ok b) : ∃ a, e = .ok a ∧ f a = .ok b := by
  cases e with
  | error err => exact Except.noConfusion (by simpa only [Bind.bind, Except.bind] using h)
  | ok a => exact ⟨a, rfl, by simpa only [Bind.bind, Except.bind] using h⟩

theorem alookup_aset_self (d : List (YKey × Yaml)) (k : YKey) (v : Yaml) :
    alookup (aset d k v) k = some v := by
  induction d with
  | nil => simp [aset, alookup]
  | cons kv rest ih =>
    obtain ⟨k0, v0⟩ := kv
    by_cases hk : k0 = k
    · simp [aset, hk, alookup]
    · simp [aset, hk, alookup, ih]

theorem alookup_aset_other {k k' : YKey} (hne : k ≠ k') (d : List (YKey × Yaml)) (v : Yaml) :
    alookup (aset d k v) k' = alookup d k' := by
  induction d with
  | nil => simp [aset, alookup, hne]
  | cons kv rest ih =>
    obtain ⟨k0, v0⟩ := kv
    by_cases hk : k0 = k
    · subst hk
      simp [aset, alookup, hne]
    · simp [aset, hk, alookup, ih]

theorem aset_self {d : List (YKey × Yaml)} {k : YKey} {v : Yaml}
    (h : alookup d k = some v) : aset d k v = d := by
  induction d with
  | nil => simp [alookup] at h
  | cons kv rest ih =>
    obtain ⟨k0, v0⟩ := kv
    by_cases hk : k0 = k
    · subst hk
      have hv : v0 = v := by simpa [alookup] using h
      subst hv
      simp [aset]
    · simp only [alookup, if_neg hk] at h
      simp [aset, hk, ih h]

theorem alookup_append (d e : List (YKey × Yaml)) (k : YKey) :
    alookup (d ++ e) k =
      match alookup d k with
      | some v => some v
      | none => alookup e k := by
  induction d with
  | nil => simp [alookup]
  | cons kv rest ih =>
    obtain ⟨k0, v0⟩ := kv
    by_cases hk : k0 = k
    · simp [alookup, hk]
    · simp [alookup, hk, ih]


theorem mergeKey_untouched {fuel : Nat} {d d' : List (YKey × Yaml)} {k : YKey} {v : Yaml}
    (h : mergeKey fuel d k v = .ok d') {k' : YKey} (hne : k' ≠ k) :
    alookup d' k' = alookup d k' := by
  cases fuel with
  | zero => exact Except.noConfusion (by simpa only [mergeKey] using h)
  | succ fuel =>
    simp only [mergeKey] at h
    split at h
    · simp only [pure, Except.pure, Except.ok.injEq] at h
      subst h
      rw [alookup_append]
      cases hd : alookup d k' with
      | some w => rfl
      | none =>
        have : ¬ k = k' := fun hh => hne hh.symm
        simp [alookup, this]
    · split at h
      · obtain ⟨a, ha, hp⟩ := exBind_ok h
        simp only [pure, Except.pure, Except.ok.injEq] at hp
        subst hp
        exact alookup_aset_other (fun hh => hne hh.symm) d _
      · split at h
        · simp only [pure, Except.pure, Except.ok.injEq] at h
          subst h
          exact alookup_aset_other (fun hh => hne hh.symm) d _
        · exact Except.noConfusion h

theorem mergeKey_at {fuel : Nat} {d d' : List (YKey × Yaml)} {k : YKey} {v : Yaml}
    (h : mergeKey fuel d k v = .ok d') :
    (alookup d k = none ∧ alookup d' k = some v) ∨
    (∃ dv, alookup d k = some dv ∧
      ((∃ dm sm rm fm, dv = .map dm ∧ v = .map sm ∧ mergeList fm dm sm = .ok rm ∧
          alookup d' k = some (.map rm)) ∨
       (sameKind dv v = true ∧ dv.isMap = false ∧ v.isMap = false ∧
          alookup d' k = some v))) := by
  cases fuel with
  | zero => exact Except.noConfusion (by simpa only [mergeKey] using h)
  | succ fuel =>
    simp only [mergeKey] at h
    split at h
    · rename_i hnone
      simp only [pure, Except.pure, Except.ok.injEq] at h
      subst h
      refine .inl ⟨hnone, ?_⟩
      rw [alookup_append, hnone]
      simp [alookup]
    · rename_i dv hsome
      split at h
      · rename_i dm sm
        obtain ⟨rm, hrm, hp⟩ := exBind_ok h
        simp only [pure, Except.pure, Except.ok.injEq] at hp
        subst hp
        exact .inr ⟨.map dm, hsome, .inl ⟨dm, sm, rm, fuel, rfl, rfl, hrm,
          alookup_aset_self d k (.map rm)⟩⟩
      · rename_i hnotmaps
        split at h
        · rename_i hkind
          simp only [pure, Except.pure, Except.ok.injEq] at h
          subst h
          refine .inr ⟨dv, hsome, .inr ⟨hkind, ?_, ?_, alookup_aset_self d k v⟩⟩
          · cases dv <;> cases v <;> simp_all [sameKind, kindIdx, Yaml.isMap]
          · cases dv <;> cases v <;> simp_all [sameKind, kindIdx, Yaml.isMap]
        · exact Except.noConfusion h


theorem mergeList_ok_cons {fuel : Nat} {d r : List (YKey × Yaml)} {k0 : YKey} {v0 : Yaml}
    {rest : List (YKey × Yaml)}
    (h : mergeList (fuel + 1) d ((k0, v0) :: rest) = .ok r) :
    ∃ d1, mergeKey fuel d k0 v0 = .ok d1 ∧ mergeList fuel d1 rest = .ok r := by
  simp only [mergeList] at h
  exact exBind_ok h

theorem mergeList_untouched {s : List (YKey × Yaml)} :
    ∀ {fuel : Nat} {d r : List (YKey × Yaml)}, mergeList fuel d s = .ok r →
    ∀ {k : YKey}, (∀ kv ∈ s, kv.1 ≠ k) → alookup r k = alookup d k := by
  induction s with
  | nil =>
    intro fuel d r h k _
    simp only [mergeList, pure, Except.pure, Except.ok.injEq] at h
    subst h
    rfl
  | cons kv rest ih =>
    intro fuel d r h k hk
    obtain ⟨k0, v0⟩ := kv
    cases fuel with
    | zero => exact Except.noConfusion (by simpa only [mergeList] using h)
    | succ fuel =>
      obtain ⟨d1, h1, h2⟩ := mergeList_ok_cons h
      have hne : k ≠ k0 := fun hh => (hk (k0, v0) (List.mem_cons_self _ _)) hh.symm
      rw [ih h2 (fun kv2 hm => hk kv2 (List.mem_cons_of_mem _ hm)),
        mergeKey_untouched h1 hne]


theorem alookup_eq_none {l : List (YKey × Yaml)} {k : YKey} :
    alookup l k = none ↔ ∀ kv ∈ l, ¬ kv.1 = k := by
  induction l with
  | nil => simp [alookup]
  | cons kv rest ih =>
    obtain ⟨k0, v0⟩ := kv
    by_cases hk : k0 = k
    · subst hk
      simp [alookup]
    · simp [alookup, hk, ih]

theorem mergeKey_lookup {fuel : Nat} {d d' : List (YKey × Yaml)} {k : YKey} {v : Yaml}
    (h : mergeKey fuel d k v = .ok d') :
    LookupMerged (alookup d k) v (alookup d' k) := by
  rcases mergeKey_at h with ⟨hnone, hr⟩ | ⟨dv, hsome, hcase⟩
  · rw [hnone]
    exact hr
  · rw [hsome]
    exact hcase

theorem mergeList_lookup_some {s : List (YKey × Yaml)} :
    ∀ {fuel : Nat} {d r : List (YKey × Yaml)}, mergeList fuel d s = .ok r →
    (s.map Prod.fst).Nodup →
    ∀ {k : YKey} {sv : Yaml}, alookup s k = some sv →
    LookupMerged (alookup d k) sv (alookup r k) := by
  induction s with
  | nil =>
    intro fuel d r _ _ k sv hs
    exact Option.noConfusion (by simpa only [alookup] using hs)
  | cons kv rest ih =>
    intro fuel d r h hnd k sv hs
    obtain ⟨k0, v0⟩ := kv
    cases fuel with
    | zero => exact Except.noConfusion (by simpa only [mergeList] using h)
    | succ fuel =>
      obtain ⟨d1, h1, h2⟩ := mergeList_ok_cons h
      simp only [List.map_cons, List.nodup_cons] at hnd
      by_cases hk : k0 = k
      · subst hk
        have hsv : v0 = sv := by simpa [alookup] using hs
        subst hsv
        have hrest : alookup rest k0 = none := by
          rw [alookup_eq_none]
          intro kv2 hm he
          exact hnd.1 (he ▸ List.mem_map_of_mem Prod.fst hm)
        have huntouched : alookup r k0 = alookup d1 k0 :=
          mergeList_untouched h2 (fun kv2 hm he =>
            hnd.1 (he ▸ List.mem_map_of_mem Prod.fst hm))
        rw [huntouched]
        exact mergeKey_lookup h1
      · have hs' : alookup rest k = some sv := by simpa [alookup, hk] using hs
        have hd1 : alookup d1 k = alookup d k :=
          mergeKey_untouched h1 (fun hh => hk hh.symm)
        have := ih h2 hnd.2 hs'
        rwa [hd1] at this


theorem NodupDeep.keys_nodup {kvs : List (YKey × Yaml)}
    (h : NodupDeep (.map kvs)) : (kvs.map Prod.fst).Nodup := by
  cases h with
  | of_scalar _ hs => simp [Yaml.isMap] at hs
  | of_map _ hnd _ => exact hnd

theorem NodupDeep.val {kvs : List (YKey × Yaml)} {kv : YKey × Yaml}
    (h : NodupDeep (.map kvs)) (hm : kv ∈ kvs) : NodupDeep kv.2 := by
  cases h with
  | of_scalar _ hs => simp [Yaml.isMap] at hs
  | of_map _ _ hall => exact hall kv hm

theorem alookup_mem {l : List (YKey × Yaml)} {k : YKey} {v : Yaml}
    (h : alookup l k = some v) : (k, v) ∈ l := by
  induction l with
  | nil => exact Option.noConfusion (by simpa only [alookup] using h)
  | cons kv rest ih =>
    obtain ⟨k0, v0⟩ := kv
    by_cases hk : k0 = k
    · subst hk
      have : v0 = v := by simpa [alookup] using h
      subst this
      exact List.mem_cons_self _ _
    · exact List.mem_cons_of_mem _ (ih (by simpa [alookup, hk] using h))

theorem getPath_scalar_cons {v : Yaml} (hv : v.isMap = false)
    (k : YKey) (ks : List YKey) : getPath v (k :: ks) = none := by
  cases v <;> simp_all [getPath, Yaml.isMap]

/-- Source-wins path law: every leaf path of the source survives a
successful `TYPESAFE_REPLACE` merge with exactly its source value. -/
theorem merged_getPath_src {p : List YKey} :
    ∀ {fuel : Nat} {d s r : List (YKey × Yaml)},
    mergeList fuel d s = .ok r → NodupDeep (.map s) →
    ∀ {v : Yaml}, getPath (.map s) p = some v → v.isMap = false →
    getPath (.map r) p = some v := by
  induction p with
  | nil =>
    intro fuel d s r _ _ v hp hv
    have : Yaml.map s = v := by simpa [getPath] using hp
    subst this
    simp [Yaml.isMap] at hv
  | cons k ks ih =>
    intro fuel d s r h hnd v hp hv
    simp only [getPath] at hp
    rcases hsv : alookup s k with _ | sv
    · rw [hsv] at hp
      exact Option.noConfusion hp
    · rw [hsv] at hp
      have hlm := mergeList_lookup_some h hnd.keys_nodup hsv
      unfold LookupMerged at hlm
      rcases hdv : alookup d k with _ | dv
      · rw [hdv] at hlm
        simp only [getPath, hlm]
        exact hp
      · rw [hdv] at hlm
        rcases hlm with ⟨dm, sm, rm, fm, hdm, hsm, hmerge, hr⟩ | ⟨hsk, hdnm, hsnm, hr⟩
        · subst hsm
          cases ks with
          | nil =>
            have : Yaml.map sm = v := by simpa [getPath] using hp
            subst this
            simp [Yaml.isMap] at hv
          | cons k2 ks2 =>
            have hndsm : NodupDeep (.map sm) := hnd.val (alookup_mem hsv)
            simp only [getPath, hr]
            exact ih hmerge hndsm hp hv
        · cases ks with
          | nil =>
            have : sv = v := by simpa [getPath] using hp
            subst this
            simp [getPath, hr]
          | cons k2 ks2 =>
            have hp2 : getPath sv (k2 :: ks2) = some v := hp
            rw [getPath_scalar_cons hsnm] at hp2
            exact Option.noConfusion hp2

/-- Destination-kept path law: a path present only in the destination
keeps the destination's value through a successful merge. -/
theorem merged_getPath_dst {p : List YKey} :
    ∀ {fuel : Nat} {d s r : List (YKey × Yaml)},
    mergeList fuel d s = .ok r → NodupDeep (.map s) →
    ∀ {v : Yaml}, getPath (.map d) p = some v → getPath (.map s) p = none →
    getPath (.map r) p = some v := by
  induction p with
  | nil =>
    intro fuel d s r _ _ v _ hs
    simp [getPath] at hs
  | cons k ks ih =>
    intro fuel d s r h hnd v hp hs
    simp only [getPath] at hp hs
    rcases hdv : alookup d k with _ | dv
    · rw [hdv] at hp
      exact Option.noConfusion hp
    · rw [hdv] at hp
      rcases hsv : alookup s k with _ | sv
      · have hr : alookup r k = alookup d k :=
          mergeList_untouched h (fun kv hm => alookup_eq_none.mp hsv kv hm)
        simp only [getPath, hr, hdv]
        exact hp
      · rw [hsv] at hs
        have hlm := mergeList_lookup_some h hnd.keys_nodup hsv
        unfold LookupMerged at hlm
        rw [hdv] at hlm
        rcases hlm with ⟨dm, sm, rm, fm, hdm, hsm, hmerge, hr⟩ | ⟨hsk, hdnm, hsnm, hr⟩
        · subst hdm hsm
          have hndsm : NodupDeep (.map sm) := hnd.val (alookup_mem hsv)
          simp only [getPath, hr]
          exact ih hmerge hndsm hp hs
        · cases ks with
          | nil =>
            simp [getPath] at hs
          | cons k2 ks2 =>
            have hp2 : getPath dv (k2 :: ks2) = some v := hp
            rw [getPath_scalar_cons hdnm] at hp2
            exact Option.noConfusion hp2


theorem merge_fuel_succ (fuel : Nat) :
    (∀ {d s r : List (YKey × Yaml)}, mergeList fuel d s = .ok r →
      mergeList (fuel + 1) d s = .ok r) ∧
    (∀ {d : List (YKey × Yaml)} {k : YKey} {v : Yaml} {d' : List (YKey × Yaml)},
      mergeKey fuel d k v = .ok d' → mergeKey (fuel + 1) d k v = .ok d') := by
  induction fuel with
  | zero =>
    constructor
    · intro d s r h
      cases s with
      | nil => simpa only [mergeList] using h
      | cons kv rest =>
        obtain ⟨k0, v0⟩ := kv
        exact Except.noConfusion (by simpa only [mergeList] using h)
    · intro d k v d' h
      exact Except.noConfusion (by simpa only [mergeKey] using h)
  | succ fuel ih =>
    constructor
    · intro d s r h
      cases s with
      | nil => simpa only [mergeList] using h
      | cons kv rest =>
        obtain ⟨k0, v0⟩ := kv
        obtain ⟨d1, h1, h2⟩ := mergeList_ok_cons h
        simp only [mergeList, Bind.bind, ih.2 h1, Except.bind]
        exact ih.1 h2
    · intro d k v d' h
      simp only [mergeKey] at h ⊢
      split at h
      · exact h
      · split at h
        · obtain ⟨rm, hrm, hp⟩ := exBind_ok h
          simp only [Bind.bind, ih.1 hrm, Except.bind]
          exact hp
        · exact h

theorem mergeList_mono {fuel fuel' : Nat} (hle : fuel ≤ fuel')
    {d s r : List (YKey × Yaml)} (h : mergeList fuel d s = .ok r) :
    mergeList fuel' d s = .ok r := by
  induction hle with
  | refl => exact h
  | step _ ih => exact (merge_fuel_succ _).1 ih

theorem mergeKey_mono {fuel fuel' : Nat} (hle : fuel ≤ fuel')
    {d : List (YKey × Yaml)} {k : YKey} {v : Yaml} {d' : List (YKey × Yaml)}
    (h : mergeKey fuel d k v = .ok d') : mergeKey fuel' d k v = .ok d' := by
  induction hle with
  | refl => exact h
  | step _ ih => exact (merge_fuel_succ _).2 ih


theorem alookup_of_mem_nodup {kvs : List (YKey × Yaml)}
    (hnd : (kvs.map Prod.fst).Nodup) {k : YKey} {v : Yaml} (hm : (k, v) ∈ kvs) :
    alookup kvs k = some v := by
  induction kvs with
  | nil => cases hm
  | cons kv rest ih =>
    obtain ⟨k0, v0⟩ := kv
    simp only [List.map_cons, List.nodup_cons] at hnd
    rcases List.mem_cons.mp hm with he | hm2
    · injection he with h1 h2
      subst h1
      subst h2
      simp [alookup]
    · have hne : ¬ k0 = k := by
        intro hh
        subst hh
        exact hnd.1 (List.mem_map_of_mem Prod.fst hm2)
      simp only [alookup, if_neg hne]
      exact ih hnd.2 hm2

theorem sameKind_refl (v : Yaml) : sameKind v v = true := by
  simp [sameKind]

theorem mergeKey_self_at {r : List (YKey × Yaml)} {k : YKey} {w : Yaml}
    (hlook : alookup r k = some w)
    (hself : ∀ vm, w = .map vm → ∃ f, mergeList f vm vm = .ok vm) :
    ∃ f, mergeKey f r k w = .ok r := by
  cases w with
  | map vm =>
    obtain ⟨f, hf⟩ := hself vm rfl
    refine ⟨f + 1, ?_⟩
    simp [mergeKey, hlook, Bind.bind, hf, Except.bind, aset_self hlook, pure, Except.pure]
  | null => exact ⟨1, by simp [mergeKey, hlook, sameKind_refl, aset_self hlook, pure, Except.pure]⟩
  | bool b => exact ⟨1, by simp [mergeKey, hlook, sameKind_refl, aset_self hlook, pure, Except.pure]⟩
  | int n => exact ⟨1, by simp [mergeKey, hlook, sameKind_refl, aset_self hlook, pure, Except.pure]⟩
  | str s => exact ⟨1, by simp [mergeKey, hlook, sameKind_refl, aset_self hlook, pure, Except.pure]⟩
  | list xs => exact ⟨1, by simp [mergeKey, hlook, sameKind_refl, aset_self hlook, pure, Except.pure]⟩

theorem self_merge_aux (m : List (YKey × Yaml)) (sub : List (YKey × Yaml))
    (h1 : ∀ kv ∈ sub, alookup m kv.1 = some kv.2)
    (h2 : ∀ kv ∈ sub, ∀ vm, kv.2 = .map vm → ∃ f, mergeList f vm vm = .ok vm) :
    ∃ f, mergeList f m sub = .ok m := by
  induction sub with
  | nil => exact ⟨0, by simp [mergeList, pure, Except.pure]⟩
  | cons kv rest ih =>
    obtain ⟨k, v⟩ := kv
    obtain ⟨fk, hfk⟩ := mergeKey_self_at (h1 (k, v) (List.mem_cons_self _ _))
      (h2 (k, v) (List.mem_cons_self _ _))
    obtain ⟨fr, hfr⟩ := ih (fun kv hm => h1 kv (List.mem_cons_of_mem _ hm))
      (fun kv hm => h2 kv (List.mem_cons_of_mem _ hm))
    refine ⟨max fk fr + 1, ?_⟩
    simp only [mergeList, Bind.bind, mergeKey_mono (le_max_left fk fr) hfk, Except.bind]
    exact mergeList_mono (le_max_right fk fr) hfr

theorem nodup_self_merge {y : Yaml} (h : NodupDeep y) :
    ∀ {m : List (YKey × Yaml)}, y = .map m → ∃ f, mergeList f m m = .ok m := by
  induction h with
  | of_scalar y hs =>
    intro m hm
    subst hm
    simp [Yaml.isMap] at hs
  | of_map kvs hnd hall ih =>
    intro m hm
    injection hm with hm
    subst hm
    refine self_merge_aux kvs kvs ?_ ?_
    · intro kv hm2
      obtain ⟨k, v⟩ := kv
      exact alookup_of_mem_nodup hnd hm2
    · intro kv hm2 vm hvm
      exact ih kv hm2 hvm


theorem NodupDeep.tail {k0 : YKey} {v0 : Yaml} {rest : List (YKey × Yaml)}
    (h : NodupDeep (.map ((k0, v0) :: rest))) : NodupDeep (.map rest) := by
  cases h with
  | of_scalar _ hs => simp [Yaml.isMap] at hs
  | of_map _ hnd hall =>
    simp only [List.map_cons, List.nodup_cons] at hnd
    exact .of_map rest hnd.2 (fun kv hm => hall kv (List.mem_cons_of_mem _ hm))

theorem NodupDeep.head_notin {k0 : YKey} {v0 : Yaml} {rest : List (YKey × Yaml)}
    (h : NodupDeep (.map ((k0, v0) :: rest))) : ∀ kv ∈ rest, ¬ kv.1 = k0 := by
  cases h with
  | of_scalar _ hs => simp [Yaml.isMap] at hs
  | of_map _ hnd _ =>
    simp only [List.map_cons, List.nodup_cons] at hnd
    intro kv hm he
    exact hnd.1 (he ▸ List.mem_map_of_mem Prod.fst hm)

theorem merge_idem_aux (n : Nat) :
    ∀ (s : List (YKey × Yaml)), sizeOf s ≤ n → NodupDeep (.map s) →
    ∀ {fuel : Nat} {d r : List (YKey × Yaml)}, mergeList fuel d s = .ok r →
    ∃ f2, mergeList f2 r s = .ok r := by
  induction n with
  | zero =>
    intro s hsz
    exact absurd hsz (by cases s <;> simp)
  | succ n ih =>
    intro s hsz hnd fuel d r h
    cases s with
    | nil =>
      have hr : d = r := by simpa [mergeList, pure, Except.pure] using h
      subst hr
      exact ⟨0, by simp [mergeList, pure, Except.pure]⟩
    | cons kv rest =>
      obtain ⟨k0, v0⟩ := kv
      cases fuel with
      | zero => exact Except.noConfusion (by simpa only [mergeList] using h)
      | succ fuel =>
        obtain ⟨d1, h1, h2⟩ := mergeList_ok_cons h
        have hrk0 : alookup r k0 = alookup d1 k0 :=
          mergeList_untouched h2 hnd.head_notin
        have hszrest : sizeOf rest ≤ n := by
          have : sizeOf ((k0, v0) :: rest) = 1 + sizeOf (k0, v0) + sizeOf rest := by
            simp
          omega
        obtain ⟨fr, hfr⟩ := ih rest hszrest hnd.tail h2
        have hkey : ∃ fk, mergeKey fk r k0 v0 = .ok r := by
          rcases mergeKey_at h1 with ⟨hnone, hd1⟩ | ⟨dv, hsome, hcase⟩
          · exact mergeKey_self_at (hrk0 ▸ hd1)
              (fun vm hvm => nodup_self_merge
                (hnd.val (List.mem_cons_self (k0, v0) rest)) hvm)
          · rcases hcase with ⟨dm, sm, rm, fm, hdm, hsm, hmerge, hd1⟩ | ⟨hsk, hdnm, hvnm, hd1⟩
            · subst hsm
              have hndsm : NodupDeep (.map sm) :=
                hnd.val (List.mem_cons_self (k0, Yaml.map sm) rest)
              have hszsm : sizeOf sm ≤ n := by
                have : sizeOf ((k0, Yaml.map sm) :: rest)
                    = 1 + (1 + sizeOf k0 + (1 + sizeOf sm)) + sizeOf rest := by
                  simp
                omega
              obtain ⟨f3, hf3⟩ := ih sm hszsm hndsm hmerge
              refine ⟨f3 + 1, ?_⟩
              have hlook : alookup r k0 = some (.map rm) := hrk0 ▸ hd1
              simp [mergeKey, hlook, Bind.bind, hf3, Except.bind, aset_self hlook,
                pure, Except.pure]
            · exact mergeKey_self_at (hrk0 ▸ hd1)
                (fun vm hvm => absurd (hvm ▸ hvnm) (by simp [Yaml.isMap]))
        obtain ⟨fk, hfk⟩ := hkey
        refine ⟨max fk fr + 1, ?_⟩
        simp only [mergeList, Bind.bind, mergeKey_mono (le_max_left fk fr) hfk, Except.bind]
        exact mergeList_mono (le_max_right fk fr) hfr

theorem merge_idem {fuel : Nat} {d s r : List (YKey × Yaml)}
    (h : mergeList fuel d s = .ok r) (hnd : NodupDeep (.map s)) :
    ∃ f2, mergeList f2 r s = .ok r :=
  merge_idem_aux (sizeOf s) s (Nat.le_refl _) hnd h


theorem sameKind_map_map (dm sm : List (YKey × Yaml)) :
    sameKind (.map dm) (.map sm) = true := by
  simp [sameKind, kindIdx]

theorem merge_conflict {s : List (YKey × Yaml)} :
    ∀ {d : List (YKey × Yaml)} {k : YKey} {dv sv : Yaml},
    alookup d k = some dv → alookup s k = some sv → sameKind dv sv = false →
    (s.map Prod.fst).Nodup →
    ∀ (fuel : Nat) (r : List (YKey × Yaml)), mergeList fuel d s ≠ .ok r := by
  induction s with
  | nil =>
    intro d k dv sv _ hs _ _ _ _ _
    exact Option.noConfusion (by simpa only [alookup] using hs)
  | cons kv rest ih =>
    intro d k dv sv hd hs hkind hnd fuel r h
    obtain ⟨k0, v0⟩ := kv
    cases fuel with
    | zero => exact Except.noConfusion (by simpa only [mergeList] using h)
    | succ fuel =>
      obtain ⟨d1, h1, h2⟩ := mergeList_ok_cons h
      simp only [List.map_cons, List.nodup_cons] at hnd
      by_cases hk : k0 = k
      · subst hk
        have hsv : v0 = sv := by simpa [alookup] using hs
        subst hsv
        rcases mergeKey_at h1 with ⟨hnone, _⟩ | ⟨dv2, hsome, hcase⟩
        · rw [hd] at hnone
          exact Option.noConfusion hnone
        · rw [hd] at hsome
          injection hsome with hsome
          subst hsome
          rcases hcase with ⟨dm, sm, _, _, hdm, hsm, _, _⟩ | ⟨hsk, _, _, _⟩
          · subst hdm hsm
            rw [sameKind_map_map] at hkind
            exact Bool.noConfusion hkind
          · rw [hsk] at hkind
            exact Bool.noConfusion hkind
      · have hs2 : alookup rest k = some sv := by simpa [alookup, hk] using hs
        have hd1 : alookup d1 k = alookup d k :=
          mergeKey_untouched h1 (fun hh => hk hh.symm)
        exact ih (hd ▸ hd1) hs2 hkind hnd.2 fuel r h2


theorem deepmerge_conflict {d o : List (YKey × Yaml)} {k : YKey} {dv sv : Yaml}
    (hd : alookup d k = some dv) (ho : alookup o k = some sv)
    (hkind : sameKind dv sv = false) (hnd : (o.map Prod.fst).Nodup) :
    ∀ (fuel : Nat) (r : Yaml), deepmerge fuel (.map d) (.map o) ≠ .ok r := by
  intro fuel r h
  cases fuel with
  | zero => exact Except.noConfusion (by simpa only [deepmerge] using h)
  | succ fuel =>
    simp only [deepmerge] at h
    obtain ⟨w, hw, _⟩ := exBind_ok h
    exact merge_conflict hd ho hkind hnd fuel w hw

theorem read_ast_preserves_id {fuel : Nat} {cfg : LoadCfg} {t t' : YamlTree}
    (h : read_ast_from_disk fuel cfg t = .ok t') : t'.step_id = t.step_id := by
  obtain ⟨sid, y⟩ := t
  cases fuel with
  | zero => exact Except.noConfusion (by simpa only [read_ast_from_disk] using h)
  | succ fuel =>
    simp only [read_ast_from_disk] at h
    split at h
    · simp at h
    · split at h
      · split at h
        · split at h
          · obtain ⟨a, ha, hp⟩ := exBind_ok h
            simp only [pure, Except.pure, Except.ok.injEq] at hp
            exact hp ▸ rfl
          · simp at h
        · split at h
          · split at h
            · obtain ⟨a, ha, hp⟩ := exBind_ok h
              simp only [pure, Except.pure, Except.ok.injEq] at hp
              exact hp ▸ rfl
            · simp at h
          · simp at h
      · simp at h

theorem merge_preserves_id {fuel : Nat} {t t' : YamlTree} {wp : Yaml} {ts : Tools}
    (h : merge_yml_trees fuel t wp ts = .ok t') : t'.step_id = t.step_id := by
  obtain ⟨sid, y⟩ := t
  cases fuel with
  | zero => exact Except.noConfusion (by simpa only [merge_yml_trees] using h)
  | succ fuel =>
    simp only [merge_yml_trees] at h
    split at h
    · obtain ⟨a, ha, h⟩ := exBind_ok h
      split at h
      · exact Except.noConfusion h
      · split at h
        · split at h
          · obtain ⟨a2, ha2, hp⟩ := exBind_ok h
            simp only [pure, Except.pure, Except.ok.injEq] at hp
            exact hp ▸ rfl
          · exact Except.noConfusion h
        · split at h
          · split at h
            · obtain ⟨a2, ha2, hp⟩ := exBind_ok h
              simp only [pure, Except.pure, Except.ok.injEq] at hp
              exact hp ▸ rfl
            · exact Except.noConfusion h
          · exact Except.noConfusion h
    · exact Except.noConfusion h

theorem forest_keeps_root {fuel : Nat} {t : YamlTree} {ts : Tools} {f : YamlForest}
    (h : tree_to_forest fuel t ts = .ok f) : f.yaml_tree = t := by
  obtain ⟨sid, y⟩ := t
  cases fuel with
  | zero => exact Except.noConfusion (by simpa only [tree_to_forest] using h)
  | succ fuel =>
    simp only [tree_to_forest] at h
    split at h
    · split at h
      · split at h
        · obtain ⟨a, ha, hp⟩ := exBind_ok h
          simp only [pure, Except.pure, Except.ok.injEq] at hp
          subst hp
          rfl
        · exact Except.noConfusion h
      · split at h
        · split at h
          · obtain ⟨a, ha, hp⟩ := exBind_ok h
            simp only [pure, Except.pure, Except.ok.injEq] at hp
            subst hp
            rfl
          · exact Except.noConfusion h
        · exact Except.noConfusion h
    · exact Except.noConfusion h

theorem synth_preserves_id {fuel : Nat} {env : SynthEnv} {t : YamlTree} {root : String}
    {st : SynthState} {r : YamlTree × SynthState}
    (h : python_script_generate_cwl fuel env t root st = .ok r) :
    r.1.step_id = t.step_id := by
  obtain ⟨sid, y⟩ := t
  cases fuel with
  | zero => exact Except.noConfusion (by simpa only [python_script_generate_cwl] using h)
  | succ fuel =>
    simp only [python_script_generate_cwl] at h
    split at h
    · split at h
      · split at h
        · obtain ⟨a, ha, hp⟩ := exBind_ok h
          simp only [pure, Except.pure, Except.ok.injEq] at hp
          exact hp ▸ rfl
        · exact Except.noConfusion h
      · split at h
        · split at h
          · obtain ⟨a, ha, hp⟩ := exBind_ok h
            simp only [pure, Except.pure, Except.ok.injEq] at hp
            exact hp ▸ rfl
          · exact Except.noConfusion h
        · exact Except.noConfusion h
    · exact Except.noConfusion h

theorem loadSteps_ns_error {fuel : Nat} {cfg : LoadCfg} {step_id : StepId}
    {wic_steps : Yaml} {subkeys : List String} {i : Nat} {steps : List Yaml}
    {step_key : String} {rest : List String}
    (hsub : subkeys.contains step_key = true)
    (hns : (lookupNs cfg.yml_paths (resolveStepNs wic_steps i step_key)).isEmpty = true) :
    loadSteps (fuel + 1) cfg step_id wic_steps subkeys i steps (step_key :: rest)
      = .error (.exc (nsNotFoundMsg (resolveStepNs wic_steps i step_key))) := by
  have hmem : step_key ∈ subkeys := by simpa using hsub
  simp [loadSteps, hmem, hns, Bind.bind, Except.bind]


theorem loadSteps_stem_error {fuel : Nat} {cfg : LoadCfg} {step_id : StepId}
    {wic_steps : Yaml} {subkeys : List String} {i : Nat} {steps : List Yaml}
    {step_key : String} {rest : List String}
    (hsub : subkeys.contains step_key = true)
    (hns : (lookupNs cfg.yml_paths (resolveStepNs wic_steps i step_key)).isEmpty = false)
    (hstem : slookup (lookupNs cfg.yml_paths (resolveStepNs wic_steps i step_key))
      (pathStem step_key) = none) :
    loadSteps (fuel + 1) cfg step_id wic_steps subkeys i steps (step_key :: rest)
      = .error (.exc (stemNotFoundMsg (pathStem step_key)
          (resolveStepNs wic_steps i step_key) step_id.stem)) := by
  have hmem : step_key ∈ subkeys := by simpa using hsub
  simp [loadSteps, hmem, hns, hstem, Bind.bind, Except.bind]

theorem loadSteps_path_error {fuel : Nat} {cfg : LoadCfg} {step_id : StepId}
    {wic_steps : Yaml} {subkeys : List String} {i : Nat} {steps : List Yaml}
    {step_key : String} {rest : List String} {yaml_path : String}
    (hsub : subkeys.contains step_key = true)
    (hns : (lookupNs cfg.yml_paths (resolveStepNs wic_steps i step_key)).isEmpty = false)
    (hstem : slookup (lookupNs cfg.yml_paths (resolveStepNs wic_steps i step_key))
      (pathStem step_key) = some yaml_path)
    (hbad : slookup cfg.fs yaml_path = none ∨ pathSuffix yaml_path ≠ sWicExt) :
    loadSteps (fuel + 1) cfg step_id wic_steps subkeys i steps (step_key :: rest)
      = .error (.exc (badPathMsg yaml_path)) := by
  have hmem : step_key ∈ subkeys := by simpa using hsub
  rcases hbad with hmiss | hsuf
  · simp [loadSteps, hmem, hns, hstem, hmiss, Bind.bind, Except.bind]
  · rcases hfs : slookup cfg.fs yaml_path with _ | content
    · simp [loadSteps, hmem, hns, hstem, hfs, Bind.bind, Except.bind]
    · simp [loadSteps, hmem, hns, hstem, hfs, hsuf, Bind.bind, Except.bind]

theorem read_ast_propagates {fuel : Nat} {cfg : LoadCfg} {sid : StepId}
    {kvs : List (YKey × Yaml)} {steps : List Yaml} {e : Err}
    (hval : (!cfg.ignore_validation_errors && !cfg.validate (.map kvs)) = false)
    (hb : yGet (dGet (.map kvs) kWic yEmpty) kBackends = none)
    (hs : yGet (.map kvs) kSteps = some (.list steps))
    (herr : loadSteps fuel cfg sid (dGet (dGet (.map kvs) kWic yEmpty) kSteps yEmpty)
      (get_subkeys (get_steps_keys steps) (cfg.tools.map (fun st => st.1.stem)))
      0 steps (get_steps_keys steps) = .error e) :
    read_ast_from_disk (fuel + 1) cfg ⟨sid, .map kvs⟩ = .error e := by
  simp [read_ast_from_disk, hval, hb, hs, herr, Bind.bind, Except.bind]

/-- A successful load of a document that declares `wic.backends`
produces exactly the reassembled backends mapping computed by
`loadBackends` under the document-declared namespace. -/
theorem read_ast_backends_ok {fuel : Nat} {cfg : LoadCfg} {sid : StepId}
    {kvs : List (YKey × Yaml)} {bs : List (YKey × Yaml)} {t' : YamlTree}
    (hb : yGet (dGet (.map kvs) kWic yEmpty) kBackends = some (.map bs))
    (h : read_ast_from_disk (fuel + 1) cfg ⟨sid, .map kvs⟩ = .ok t') :
    ∃ out, loadBackends fuel cfg (nsOfWic (dGet (.map kvs) kWic yEmpty)) bs = .ok out ∧
      t' = ⟨sid, ySet (.map kvs) kWic
        (ySet (dGet (.map kvs) kWic yEmpty) kBackends (.map out))⟩ := by
  simp only [read_ast_from_disk] at h
  split at h
  · simp at h
  · rw [hb] at h
    simp only [] at h
    obtain ⟨out, hout, hp⟩ := exBind_ok h
    simp only [pure, Except.pure, Except.ok.injEq] at hp
    exact ⟨out, hout, hp.symm⟩


theorem loadBackends_spec {bl : List (YKey × Yaml)} :
    ∀ {fuel : Nat} {cfg : LoadCfg} {ns : String} {out : List (YKey × Yaml)},
    loadBackends fuel cfg ns bl = .ok out → List.Forall₂ (BackLoaded cfg ns) bl out := by
  induction bl with
  | nil =>
    intro fuel cfg ns out h
    have : out = [] := by simpa [loadBackends, pure, Except.pure] using h.symm
    subst this
    exact List.Forall₂.nil
  | cons kv rest ih =>
    intro fuel cfg ns out h
    obtain ⟨k, back⟩ := kv
    cases fuel with
    | zero => exact Except.noConfusion (by simpa only [loadBackends] using h)
    | succ fuel =>
      simp only [loadBackends] at h
      split at h
      · rename_i back_name
        obtain ⟨bt, hbt, h2⟩ := exBind_ok h
        obtain ⟨bts, hbts, hp⟩ := exBind_ok h2
        simp only [pure, Except.pure, Except.ok.injEq] at hp
        subst hp
        exact List.Forall₂.cons ⟨back_name, bt, fuel, rfl, hbt, rfl⟩ (ih hbts)
      · exact Except.noConfusion h

theorem forall₂_mem_right {α β : Type} {R : α → β → Prop} {l1 : List α} {l2 : List β}
    (h : List.Forall₂ R l1 l2) {b : β} (hm : b ∈ l2) : ∃ a ∈ l1, R a b := by
  induction h with
  | nil => cases hm
  | cons hr _ ih =>
    rcases List.mem_cons.mp hm with he | hm2
    · subst he
      exact ⟨_, List.mem_cons_self _ _, hr⟩
    · obtain ⟨a, ha, har⟩ := ih hm2
      exact ⟨a, List.mem_cons_of_mem _ ha, har⟩

theorem loadBackends_ns {bl : List (YKey × Yaml)} :
    ∀ {fuel : Nat} {cfg : LoadCfg} {ns : String} {out : List (YKey × Yaml)},
    loadBackends fuel cfg ns bl = .ok out →
    ∀ kv ∈ out, ∃ stem : String, kv.1 = .sid ⟨stem, ns⟩ := by
  intro fuel cfg ns out h kv hm
  have hf := loadBackends_spec h
  obtain ⟨kb, hkb, hrel⟩ := forall₂_mem_right hf hm
  obtain ⟨name, bt, f, hname, hload, hko⟩ := hrel
  have hid : bt.step_id = ⟨name, ns⟩ := read_ast_preserves_id hload
  exact ⟨name, by rw [hko, hid]⟩


theorem tree_to_forest_backends_ok {fuel : Nat} {tools : Tools} {sid : StepId}
    {kvs bs : List (YKey × Yaml)} {f : YamlForest}
    (hb : yGet (dGet (.map kvs) kWic yEmpty) kBackends = some (.map bs))
    (h : tree_to_forest (fuel + 1) ⟨sid, .map kvs⟩ tools = .ok f) :
    ∃ ch, forestBackends fuel tools bs = .ok ch ∧ f = .mk ⟨sid, .map kvs⟩ ch := by
  simp only [tree_to_forest] at h
  rw [hb] at h
  simp only [] at h
  obtain ⟨ch, hch, hp⟩ := exBind_ok h
  simp only [pure, Except.pure, Except.ok.injEq] at hp
  exact ⟨ch, hch, hp.symm⟩

theorem forestBackends_spec {bl : List (YKey × Yaml)} :
    ∀ {fuel : Nat} {tools : Tools} {ch : List (StepId × YamlForest)},
    forestBackends fuel tools bl = .ok ch → List.Forall₂ (BackForest tools) bl ch := by
  induction bl with
  | nil =>
    intro fuel tools ch h
    have : ch = [] := by simpa [forestBackends, pure, Except.pure] using h.symm
    subst this
    exact List.Forall₂.nil
  | cons kv rest ih =>
    intro fuel tools ch h
    obtain ⟨k, back⟩ := kv
    cases fuel with
    | zero => exact Except.noConfusion (by simpa only [forestBackends] using h)
    | succ fuel =>
      simp only [forestBackends] at h
      split at h
      · rename_i sid2
        obtain ⟨ff, hff, h2⟩ := exBind_ok h
        obtain ⟨tl, htl, hp⟩ := exBind_ok h2
        simp only [pure, Except.pure, Except.ok.injEq] at hp
        subst hp
        exact List.Forall₂.cons ⟨sid2, ff, fuel, rfl, hff, rfl⟩ (ih htl)
      · exact Except.noConfusion h

theorem resolveStepNs_global {wic_steps : Yaml} {i : Nat} {step_key : String}
    (hns : yGet (dGet (dGet wic_steps (stepPosKey i step_key) yEmpty) kWic yEmpty)
      kNamespace = none) :
    resolveStepNs wic_steps i step_key = sGlobal := by
  simp [resolveStepNs, hns]

theorem forestSteps_head_global {fuel : Nat} {tools : Tools} {wic_steps : Yaml}
    {subkeys : List String} {i : Nat} {steps : List Yaml} {step_key : String}
    {rest : List String} {lst : List (StepId × YamlForest)}
    (hsub : subkeys.contains step_key = true)
    (hns : yGet (dGet (dGet wic_steps (stepPosKey i step_key) yEmpty) kWic yEmpty)
      kNamespace = none)
    (h : forestSteps (fuel + 1) tools wic_steps subkeys i steps (step_key :: rest)
      = .ok lst) :
    ∃ ff tl, lst = (⟨step_key, sGlobal⟩, ff) :: tl := by
  simp only [forestSteps, hsub, if_pos] at h
  split at h
  · obtain ⟨a, ha, _⟩ := exBind_ok h
    exact Except.noConfusion ha
  · split at h
    · split at h
      · obtain ⟨a, ha, _⟩ := exBind_ok h
        exact Except.noConfusion ha
      · split at h
        · obtain ⟨a, ha, _⟩ := exBind_ok h
          exact Except.noConfusion ha
        · obtain ⟨ff, hff, h2⟩ := exBind_ok h
          obtain ⟨y, hy, h3⟩ := exBind_ok h2
          simp only [pure, Except.pure, Except.ok.injEq] at hy
          subst hy
          obtain ⟨tl, htl, hp⟩ := exBind_ok h3
          simp only [pure, Except.pure, Except.ok.injEq] at hp
          subst hp
          have hroot := forest_keeps_root hff
          refine ⟨ff, tl, ?_⟩
          rw [hroot, resolveStepNs_global hns]
          rfl
    · obtain ⟨a, ha, _⟩ := exBind_ok h
      exact Except.noConfusion ha


theorem loadSteps_head_global {fuel : Nat} {cfg : LoadCfg} {step_id : StepId}
    {wic_steps : Yaml} {subkeys : List String} {i : Nat} {steps : List Yaml}
    {step_key : String} {rest : List String} {out : List Yaml}
    (hsub : subkeys.contains step_key = true)
    (hns : yGet (dGet (dGet wic_steps (stepPosKey i step_key) yEmpty) kWic yEmpty)
      kNamespace = none)
    (h : loadSteps (fuel + 1) cfg step_id wic_steps subkeys i steps (step_key :: rest)
      = .ok out) :
    ∃ yaml_path content sub,
      slookup (lookupNs cfg.yml_paths sGlobal) (pathStem step_key) = some yaml_path ∧
      slookup cfg.fs yaml_path = some content ∧
      read_ast_from_disk fuel cfg ⟨⟨step_key, sGlobal⟩, content⟩ = .ok sub := by
  simp only [loadSteps, hsub, if_pos] at h
  rw [resolveStepNs_global hns] at h
  split at h
  · obtain ⟨a, ha, _⟩ := exBind_ok h
    exact Except.noConfusion ha
  · split at h
    · obtain ⟨a, ha, _⟩ := exBind_ok h
      exact Except.noConfusion ha
    · rename_i yaml_path hpath
      split at h
      · obtain ⟨a, ha, _⟩ := exBind_ok h
        exact Except.noConfusion ha
      · rename_i content hcontent
        split at h
        · obtain ⟨a, ha, _⟩ := exBind_ok h
          exact Except.noConfusion ha
        · obtain ⟨sub, hsubload, _⟩ := exBind_ok h
          exact ⟨yaml_path, content, sub, hpath, hcontent, hsubload⟩

theorem adel_lookup_other {k k' : YKey} (hne : ¬ k = k') (l : List (YKey × Yaml)) :
    alookup (adel l k) k' = alookup l k' := by
  induction l with
  | nil => simp [adel]
  | cons kv rest ih =>
    obtain ⟨k0, v0⟩ := kv
    by_cases hk : k0 = k
    · subst hk
      have : ¬ k0 = k' := hne
      simp [adel, alookup, this]
    · simp [adel, hk, alookup, ih]

theorem adel_lookup_self {l : List (YKey × Yaml)} {k : YKey}
    (hnd : (l.map Prod.fst).Nodup) : alookup (adel l k) k = none := by
  induction l with
  | nil => simp [adel, alookup]
  | cons kv rest ih =>
    obtain ⟨k0, v0⟩ := kv
    simp only [List.map_cons, List.nodup_cons] at hnd
    by_cases hk : k0 = k
    · subst hk
      simp only [adel, if_pos rfl]
      rw [alookup_eq_none]
      intro kv2 hm he
      exact hnd.1 (he ▸ List.mem_map_of_mem Prod.fst hm)
    · simp [adel, hk, alookup, ih hnd.2]

theorem slookup_mem {α : Type} {l : List (String × α)} {k : String} {v : α}
    (h : slookup l k = some v) : (k, v) ∈ l := by
  induction l with
  | nil => exact Option.noConfusion (by simpa only [slookup] using h)
  | cons kv rest ih =>
    obtain ⟨k0, v0⟩ := kv
    by_cases hk : k0 = k
    · subst hk
      have : v0 = v := by simpa [slookup] using h
      subst this
      exact List.mem_cons_self _ _
    · exact List.mem_cons_of_mem _ (ih (by simpa [slookup, hk] using h))

theorem lGet_mem {l : List Yaml} {i : Nat} {a : Yaml} (h : l.get? i = some a) :
    a ∈ l := by
  induction l generalizing i with
  | nil => simp at h
  | cons x rest ih =>
    cases i with
    | zero =>
      have : x = a := by simpa using h
      subst this
      exact List.mem_cons_self _ _
    | succ i => exact List.mem_cons_of_mem _ (ih (by simpa using h))

theorem listSet_mem {l : List Yaml} {i : Nat} {v b : Yaml}
    (h : b ∈ listSet l i v) : b ∈ l ∨ b = v := by
  induction l generalizing i with
  | nil => simp [listSet] at h
  | cons x rest ih =>
    cases i with
    | zero =>
      rcases List.mem_cons.mp h with he | hm
      · exact .inr he
      · exact .inl (List.mem_cons_of_mem _ hm)
    | succ i =>
      rcases List.mem_cons.mp h with he | hm
      · exact .inl (he ▸ List.mem_cons_self _ _)
      · rcases ih hm with h2 | h2
        · exact .inl (List.mem_cons_of_mem _ h2)
        · exact .inr h2

theorem aset_mem {l : List (YKey × Yaml)} {k : YKey} {v : Yaml} {kv : YKey × Yaml}
    (h : kv ∈ aset l k v) : kv ∈ l ∨ kv.2 = v := by
  induction l with
  | nil =>
    simp only [aset] at h
    rcases List.mem_singleton.mp h with rfl
    exact .inr rfl
  | cons kv0 rest ih =>
    obtain ⟨k0, v0⟩ := kv0
    by_cases hk : k0 = k
    · simp only [aset, if_pos hk] at h
      rcases List.mem_cons.mp h with he | hm
      · exact .inr (by rw [he])
      · exact .inl (List.mem_cons_of_mem _ hm)
    · simp only [aset, if_neg hk] at h
      rcases List.mem_cons.mp h with he | hm
      · exact .inl (he ▸ List.mem_cons_self _ _)
      · rcases ih hm with h2 | h2
        · exact .inl (List.mem_cons_of_mem _ h2)
        · exact .inr h2


theorem TriBacks_mem : ∀ {bs : List (YKey × Yaml)}, TriBacks bs →
    ∀ kv ∈ bs, TriDoc kv.2 := by
  intro bs
  induction bs with
  | nil => intro _ kv hm; cases hm
  | cons kv0 rest ih =>
    intro h kv hm
    cases h with
    | cons k v rest hv ht =>
      rcases List.mem_cons.mp hm with he | hm2
      · subst he; exact hv
      · exact ih ht kv hm2

theorem TriBacks_of : ∀ {bs : List (YKey × Yaml)},
    (∀ kv ∈ bs, TriDoc kv.2) → TriBacks bs := by
  intro bs
  induction bs with
  | nil => intro _; exact .nil
  | cons kv rest ih =>
    intro h
    obtain ⟨k, v⟩ := kv
    exact .cons k v rest (h (k, v) (List.mem_cons_self _ _))
      (ih (fun kv2 hm => h kv2 (List.mem_cons_of_mem _ hm)))

theorem TriSteps_mem : ∀ {ss : List Yaml}, TriSteps ss →
    ∀ s ∈ ss, ∃ skvs, s = .map skvs ∧ TriV skvs := by
  intro ss
  induction ss with
  | nil => intro _ s hm; cases hm
  | cons s0 rest ih =>
    intro h s hm
    cases h with
    | cons skvs rest2 hv ht =>
      rcases List.mem_cons.mp hm with he | hm2
      · exact ⟨skvs, he, hv⟩
      · exact ih ht s hm2

theorem TriSteps_of : ∀ {ss : List Yaml},
    (∀ s ∈ ss, ∃ skvs, s = .map skvs ∧ TriV skvs) → TriSteps ss := by
  intro ss
  induction ss with
  | nil => intro _; exact .nil
  | cons s rest ih =>
    intro h
    obtain ⟨skvs, hs, hv⟩ := h s (List.mem_cons_self _ _)
    subst hs
    exact .cons skvs rest hv (ih (fun s2 hm => h s2 (List.mem_cons_of_mem _ hm)))

theorem TriV_mem : ∀ {kvs : List (YKey × Yaml)}, TriV kvs →
    ∀ kv ∈ kvs, TriVal kv.2 := by
  intro kvs
  induction kvs with
  | nil => intro _ kv hm; cases hm
  | cons kv0 rest ih =>
    intro h kv hm
    cases h with
    | cons k v rest2 hv ht =>
      rcases List.mem_cons.mp hm with he | hm2
      · subst he; exact hv
      · exact ih ht kv hm2

theorem TriV_of : ∀ {kvs : List (YKey × Yaml)},
    (∀ kv ∈ kvs, TriVal kv.2) → TriV kvs := by
  intro kvs
  induction kvs with
  | nil => intro _; exact .nil
  | cons kv rest ih =>
    intro h
    obtain ⟨k, v⟩ := kv
    exact .cons k v rest (h (k, v) (List.mem_cons_self _ _))
      (ih (fun kv2 hm => h kv2 (List.mem_cons_of_mem _ hm)))

theorem raw_steps_tri {ss : List Yaml}
    (h : ∀ s ∈ ss, ∃ skvs, s = .map skvs ∧ ∀ kv ∈ skvs, RawVal kv.2) :
    TriSteps ss := by
  refine TriSteps_of (fun s hm => ?_)
  obtain ⟨skvs, hs, hv⟩ := h s hm
  exact ⟨skvs, hs, TriV_of (fun kv hm2 => (hv kv hm2).triVal)⟩


theorem step_update_tri {steps : List Yaml} {i : Nat} {skvs : List (YKey × Yaml)}
    {k : YKey} {newv : Yaml} (htri : TriSteps steps) (htv : TriV skvs)
    (hnew : TriVal newv) :
    TriSteps (listSet steps i (.map (aset skvs k newv))) := by
  refine TriSteps_of (fun s hm => ?_)
  rcases listSet_mem hm with hm2 | hm2
  · exact TriSteps_mem htri s hm2
  · refine ⟨_, hm2, TriV_of (fun kv2 hm3 => ?_)⟩
    rcases aset_mem hm3 with hm4 | hm4
    · exact TriV_mem htv kv2 hm4
    · exact hm4 ▸ hnew

theorem yGet_isMap {y : Yaml} {k : String} {v : Yaml} (h : yGet y k = some v) :
    ∃ kvs, y = .map kvs := by
  cases y <;> simp [yGet] at h
  exact ⟨_, rfl⟩

theorem load_tri (fuel : Nat) :
    (∀ (cfg : LoadCfg) (t t' : YamlTree),
      RawDoc t.yml → FsRaw cfg → read_ast_from_disk fuel cfg t = .ok t' →
      TriDoc t'.yml) ∧
    (∀ (cfg : LoadCfg) (ns : String) (bl out : List (YKey × Yaml)),
      (∀ kv ∈ bl, RawDoc kv.2) → FsRaw cfg → loadBackends fuel cfg ns bl = .ok out →
      TriBacks out) ∧
    (∀ (cfg : LoadCfg) (sid : StepId) (ws : Yaml) (sk : List String) (i : Nat)
      (steps : List Yaml) (keys : List String) (steps' : List Yaml),
      TriSteps steps → FsRaw cfg → loadSteps fuel cfg sid ws sk i steps keys = .ok steps' →
      TriSteps steps') := by
  induction fuel with
  | zero =>
    refine ⟨?_, ?_, ?_⟩
    · intro cfg t t' _ _ h
      exact Except.noConfusion (by simpa only [read_ast_from_disk] using h)
    · intro cfg ns bl out hraw _ h
      cases bl with
      | nil =>
        have : out = [] := by simpa [loadBackends, pure, Except.pure] using h.symm
        subst this
        exact .nil
      | cons kv rest =>
        exact Except.noConfusion (by simpa only [loadBackends] using h)
    · intro cfg sid ws sk i steps keys steps' htri _ h
      cases keys with
      | nil =>
        have : steps = steps' := by simpa [loadSteps, pure, Except.pure] using h
        exact this ▸ htri
      | cons k rest =>
        exact Except.noConfusion (by simpa only [loadSteps] using h)
  | succ fuel ih =>
    refine ⟨?_, ?_, ?_⟩
    · -- read_ast_from_disk
      intro cfg t t' hraw hfs h
      obtain ⟨sid, y⟩ := t
      cases hraw with
      | mk kvs hbacks hsteps =>
      simp only [read_ast_from_disk] at h
      split at h
      · simp at h
      · rcases hbk : yGet (dGet (.map kvs) kWic yEmpty) kBackends with _ | backsv
        · rw [hbk] at h
          simp only [] at h
          rcases hst : yGet (.map kvs) kSteps with _ | stepsv
          · rw [hst] at h
            simp at h
          · rw [hst] at h
            rcases stepsv with _ | _ | _ | _ | steps0 | _ <;> simp only [] at h
            all_goals try exact Except.noConfusion h
            obtain ⟨steps2, hsteps2, hp⟩ := exBind_ok h
            simp only [pure, Except.pure, Except.ok.injEq] at hp
            subst hp
            have htri0 : TriSteps steps0 := raw_steps_tri (hsteps steps0 hst)
            have htri2 : TriSteps steps2 := ih.2.2 cfg sid _ _ 0 steps0 _ steps2 htri0 hfs hsteps2
            refine TriDoc.mk _ ?_ ?_
            · intro bs2 hb2
              rw [show dGet (.map (aset kvs (.str kSteps) (.list steps2))) kWic yEmpty
                  = dGet (.map kvs) kWic yEmpty from ?_] at hb2
              · rw [hbk] at hb2
                exact Option.noConfusion hb2
              · simp only [dGet, yGet]
                rw [alookup_aset_other (by decide)]
            · intro ss hss
              simp only [yGet] at hss
              rw [alookup_aset_self] at hss
              injection hss with hss
              injection hss with hss
              exact hss ▸ htri2
        · rw [hbk] at h
          rcases backsv with _ | _ | _ | _ | _ | bs <;> simp only [] at h
          all_goals try exact Except.noConfusion h
          obtain ⟨bts, hbts, hp⟩ := exBind_ok h
          simp only [pure, Except.pure, Except.ok.injEq] at hp
          subst hp
          have hrawbs : ∀ kv ∈ bs, RawDoc kv.2 := hbacks bs hbk
          have htb : TriBacks bts := ih.2.1 cfg _ bs bts hrawbs hfs hbts
          obtain ⟨wkvs, hw⟩ := yGet_isMap hbk
          rw [hw]
          rw [hw] at hbk
          refine TriDoc.mk _ ?_ ?_
          · intro bs2 hb2
            simp only [ySet, dGet, yGet] at hb2
            rw [alookup_aset_self] at hb2
            simp only [Option.getD_some] at hb2
            rw [alookup_aset_self] at hb2
            injection hb2 with hb2
            injection hb2 with hb2
            exact hb2 ▸ htb
          · intro ss hss
            simp only [ySet, yGet] at hss
            rw [alookup_aset_other (by decide)] at hss
            have := hsteps ss hss
            exact raw_steps_tri this
    · -- loadBackends
      intro cfg ns bl out hraw hfs h
      cases bl with
      | nil =>
        have : out = [] := by simpa [loadBackends, pure, Except.pure] using h.symm
        subst this
        exact .nil
      | cons kv rest =>
        obtain ⟨k, back⟩ := kv
        simp only [loadBackends] at h
        split at h
        · rename_i back_name
          obtain ⟨bt, hbt, h2⟩ := exBind_ok h
          obtain ⟨bts, hbts, hp⟩ := exBind_ok h2
          simp only [pure, Except.pure, Except.ok.injEq] at hp
          subst hp
          have hd : TriDoc bt.yml := ih.1 cfg _ bt
            (hraw (.str back_name, back) (List.mem_cons_self _ _)) hfs hbt
          exact .cons _ _ _ hd
            (ih.2.1 cfg ns rest bts (fun kv2 hm => hraw kv2 (List.mem_cons_of_mem _ hm))
              hfs hbts)
        · exact Except.noConfusion h
    · -- loadSteps
      intro cfg sid ws sk i steps keys steps' htri hfs h
      cases keys with
      | nil =>
        have : steps = steps' := by simpa [loadSteps, pure, Except.pure] using h
        exact this ▸ htri
      | cons k rest =>
        simp only [loadSteps] at h
        by_cases hmem : k ∈ sk
        · rw [if_pos (by simpa using hmem)] at h
          split at h
          · obtain ⟨a, ha, _⟩ := exBind_ok h
            exact Except.noConfusion ha
          · split at h
            · obtain ⟨a, ha, _⟩ := exBind_ok h
              exact Except.noConfusion ha
            · split at h
              · obtain ⟨a, ha, _⟩ := exBind_ok h
                exact Except.noConfusion ha
              · rename_i content hcontent
                split at h
                · obtain ⟨a, ha, _⟩ := exBind_ok h
                  exact Except.noConfusion ha
                · obtain ⟨sub, hsub, h2⟩ := exBind_ok h
                  split at h2
                  · obtain ⟨a, ha, _⟩ := exBind_ok h2
                    exact Except.noConfusion ha
                  · rename_i st hget
                    split at h2
                    · rename_i skvs
                      split at h2
                      · obtain ⟨a, ha, _⟩ := exBind_ok h2
                        exact Except.noConfusion ha
                      · rename_i v0 halook
                        obtain ⟨steps2, hsteps2eq, h3⟩ := exBind_ok h2
                        simp only [pure, Except.pure, Except.ok.injEq] at hsteps2eq
                        have hdoc : RawDoc content :=
                          hfs _ _ (slookup_mem hcontent)
                        have hsubtri : TriDoc sub.yml :=
                          ih.1 cfg _ sub hdoc hfs hsub
                        obtain ⟨skvs2, hskvs2, htv⟩ :=
                          TriSteps_mem htri _ (lGet_mem hget)
                        injection hskvs2 with hskvs2
                        subst hskvs2
                        have hv0tri : TriVal v0 :=
                          TriV_mem htv _ (alookup_mem halook)
                        cases v0 with
                        | null =>
                          have hnew : TriVal (.map [(.str kSubtree, sub.yml),
                              (.str kParentargs, yEmpty)]) :=
                            .subw sub.yml [] hsubtri
                          have htri2 : TriSteps (listSet steps i
                              (.map (aset skvs (.str k)
                                (.map [(.str kSubtree, sub.yml),
                                  (.str kParentargs, yEmpty)])))) :=
                            step_update_tri htri htv hnew
                          refine ih.2.2 cfg sid ws sk (i + 1) steps2 rest steps' ?_ hfs h3
                          rw [← hsteps2eq]
                          exact htri2
                        | bool b => cases hv0tri
                        | int n => cases hv0tri
                        | str s2 => cases hv0tri
                        | list xs => cases hv0tri
                        | map pm =>
                          have hnew : TriVal (.map [(.str kSubtree, sub.yml),
                              (.str kParentargs, .map pm)]) :=
                            .subw sub.yml pm hsubtri
                          have htri2 : TriSteps (listSet steps i
                              (.map (aset skvs (.str k)
                                (.map [(.str kSubtree, sub.yml),
                                  (.str kParentargs, .map pm)])))) :=
                            step_update_tri htri htv hnew
                          refine ih.2.2 cfg sid ws sk (i + 1) steps2 rest steps' ?_ hfs h3
                          rw [← hsteps2eq]
                          exact htri2
                    · obtain ⟨a, ha, _⟩ := exBind_ok h2
                      exact Except.noConfusion ha
        · rw [if_neg (by simpa using hmem)] at h
          obtain ⟨steps2, hs2, h2⟩ := exBind_ok h
          simp only [pure, Except.pure, Except.ok.injEq] at hs2
          subst hs2
          exact ih.2.2 cfg sid ws sk (i + 1) steps rest steps' htri hfs h2

theorem string_append_cancel {s a b : String} (h : s ++ a = s ++ b) : a = b := by
  have hd : s.data ++ a.data = s.data ++ b.data := congrArg String.data h
  have : a.data = b.data := List.append_cancel_left hd
  cases a with
  | mk da =>
    cases b with
    | mk db => exact congrArg String.mk this

theorem minted_isMinted (u : String) : isMintedName (sPSMinted ++ u) := ⟨u, rfl⟩

theorem kPythonScript_not_minted : ¬ isMintedName kPythonScript := by
  rintro ⟨u, hu⟩
  have hlen : kPythonScript.data.length = (sPSMinted ++ u).data.length :=
    congrArg (fun t => t.data.length) hu
  have hall : (sPSMinted ++ u).data = sPSMinted.data ++ u.data := rfl
  rw [hall, List.length_append] at hlen
  have h1 : kPythonScript.data.length = 13 := rfl
  have h2 : sPSMinted.data.length = 14 := rfl
  omega

theorem minted_ne_ps (u : String) : ¬ sPSMinted ++ u = kPythonScript := by
  intro h
  exact kPythonScript_not_minted ⟨u, h.symm⟩

theorem mintedKey_stem (env : SynthEnv) (j : Nat) :
    (mintedKey env j).stem = sPSMinted ++ env.uuid j := rfl

theorem scontains_of_mem {l : List String} {a : String} (h : a ∈ l) :
    l.contains a = true := by
  induction l with
  | nil => cases h
  | cons x xs ih =>
    rcases List.mem_cons.mp h with h1 | h2
    · subst h1
      simp [List.contains_cons]
    · rw [List.contains_cons, ih h2, Bool.or_true]

theorem scontains_of_not_mem {l : List String} {a : String} (h : a ∉ l) :
    l.contains a = false := by
  induction l with
  | nil => rfl
  | cons x xs ih =>
    rw [List.contains_cons]
    have hx : ¬ (a == x) = true := by
      intro hb
      exact h (by simp [beq_iff_eq.mp hb])
    have hxs : xs.contains a = false := ih (fun hm => h (List.mem_cons_of_mem _ hm))
    simp only [Bool.or_eq_false_iff, hxs]
    exact ⟨by simpa using hx, trivial⟩

theorem mem_of_scontains {l : List String} {a : String} (h : l.contains a = true) :
    a ∈ l := by
  by_contra hn
  rw [scontains_of_not_mem hn] at h
  cases h

theorem toolsUpdate_append {k : StepId} {v : Tool} :
    ∀ {ts : List (StepId × Tool)}, (∀ kv ∈ ts, kv.1 ≠ k) →
      toolsUpdate ts k v = ts ++ [(k, v)] := by
  intro ts
  induction ts with
  | nil => intro _; rfl
  | cons kv rest ih =>
    intro hf
    obtain ⟨k0, v0⟩ := kv
    have hne : ¬ k0 = k := hf (k0, v0) (List.mem_cons_self _ _)
    simp only [toolsUpdate, if_neg hne, List.cons_append]
    rw [ih (fun kv2 hm => hf kv2 (List.mem_cons_of_mem _ hm))]

theorem SynthOut_refl (env : SynthEnv) (st : SynthState) : SynthOut env st st 0 := by
  refine ⟨[], by simp [toolsL], by simp, by simp, by simp [List.range_zero], ?_⟩
  intro kv hm
  cases hm

theorem SynthOut_trans {env : SynthEnv} {st1 st2 st3 : SynthState} {n m : Nat}
    (h1 : SynthOut env st1 st2 n) (h2 : SynthOut env st2 st3 m) :
    SynthOut env st1 st3 (n + m) := by
  obtain ⟨l1, ht1, hfi1, hu1, hk1, hr1⟩ := h1
  obtain ⟨l2, ht2, hfi2, hu2, hk2, hr2⟩ := h2
  refine ⟨l1 ++ l2, ?_, ?_, ?_, ?_, ?_⟩
  · rw [ht2, ht1, List.append_assoc]
  · rw [hfi2, hfi1, List.map_append, List.append_assoc]
  · rw [hu2, hu1, Nat.add_assoc]
  · rw [List.map_append, hk1, hk2, hu1, List.range_add, List.map_append,
      List.map_map]
    congr 1
    apply List.map_congr_left
    intro j _
    simp [Function.comp, Nat.add_assoc]
  · intro kv hm
    rcases List.mem_append.mp hm with hm1 | hm2
    · exact hr1 kv hm1
    · exact hr2 kv hm2

theorem SynthOut_next {env : SynthEnv} {st st2 : SynthState} {K : Nat}
    (h : SynthOut env st st2 K) : st2.nextUuid = st.nextUuid + K := by
  obtain ⟨_, _, _, hu, _, _⟩ := h
  exact hu

theorem SynthOut_news_minted {env : SynthEnv} {st st' : SynthState} {K : Nat}
    (h : SynthOut env st st' K) :
    ∃ news : List (StepId × Tool),
      toolsL st'.tools = toolsL st.tools ++ news ∧
      ∀ kv ∈ news, ∃ j, st.nextUuid ≤ j ∧ j < st.nextUuid + K ∧ kv.1 = mintedKey env j := by
  obtain ⟨news, ht, _, _, hk, _⟩ := h
  refine ⟨news, ht, ?_⟩
  intro kv hm
  have hkey : kv.1 ∈ news.map (fun kv => kv.1) := List.mem_map_of_mem _ hm
  rw [hk] at hkey
  obtain ⟨j, hj, hkey⟩ := List.mem_map.mp hkey
  exact ⟨st.nextUuid + j, Nat.le_add_right _ _,
    by have := List.mem_range.mp hj; omega, hkey.symm⟩

theorem SynthOut_compat {S : List String} {env : SynthEnv} {st st' : SynthState} {K : Nat}
    (h : SynthOut env st st' K) (hc : StemsCompat S st.tools) :
    StemsCompat S st'.tools := by
  obtain ⟨news, ht, hmint⟩ := SynthOut_news_minted h
  intro k hnm
  have hsplit : stemsOf st'.tools = stemsOf st.tools ++ news.map (fun kv => kv.1.stem) := by
    unfold stemsOf
    rw [ht, List.map_append]
  rw [hsplit]
  have hnewsnone : (news.map (fun kv => kv.1.stem)).contains k = false := by
    apply scontains_of_not_mem
    intro hmem
    obtain ⟨kv, hkv, hkeq⟩ := List.mem_map.mp hmem
    obtain ⟨j, _, _, hkey⟩ := hmint kv hkv
    exact hnm (hkeq ▸ hkey ▸ minted_isMinted (env.uuid j))
  cases hold : (stemsOf st.tools).contains k with
  | true =>
    have hyes : ((stemsOf st.tools ++ news.map (fun kv => kv.1.stem)).contains k) = true :=
      scontains_of_mem (List.mem_append_left _ (mem_of_scontains hold))
    rw [hyes, ← hc k hnm, hold]
  | false =>
    have hnone : ((stemsOf st.tools ++ news.map (fun kv => kv.1.stem)).contains k) = false := by
      apply scontains_of_not_mem
      intro hmem
      rcases List.mem_append.mp hmem with h1 | h2
      · rw [scontains_of_mem h1] at hold
        cases hold
      · rw [scontains_of_mem h2] at hnewsnone
        cases hnewsnone
    rw [hnone, ← hc k hnm, hold]

theorem SynthOut_toolsInv {env : SynthEnv} {st st' : SynthState} {K : Nat}
    (h : SynthOut env st st' K) (hi : ToolsInv env st) : ToolsInv env st' := by
  have hnext : st'.nextUuid = st.nextUuid + K := by
    obtain ⟨_, _, _, hu, _, _⟩ := h
    exact hu
  obtain ⟨news, ht, hmint⟩ := SynthOut_news_minted h
  intro kv hm
  rw [ht] at hm
  rcases List.mem_append.mp hm with h1 | h2
  · rcases hi kv h1 with hl | ⟨j, hj, hst⟩
    · exact .inl hl
    · exact .inr ⟨j, by omega, hst⟩
  · obtain ⟨j, hle, hlt, hkey⟩ := hmint kv h2
    exact .inr ⟨j, by omega, by rw [hkey, mintedKey_stem]⟩

theorem drop_cons_get {l : List Yaml} : ∀ {i : Nat} {x : Yaml} {r : List Yaml},
    l.drop i = x :: r → l.get? i = some x := by
  induction l with
  | nil =>
    intro i x r h
    rw [List.drop_nil] at h
    cases h
  | cons y t ih =>
    intro i x r h
    cases i with
    | zero =>
      injection h with h1 _
      rw [h1]
      rfl
    | succ i => exact ih h

theorem drop_cons_succ {l : List Yaml} : ∀ {i : Nat} {x : Yaml} {r : List Yaml},
    l.drop i = x :: r → l.drop (i + 1) = r := by
  induction l with
  | nil =>
    intro i x r h
    rw [List.drop_nil] at h
    cases h
  | cons y t ih =>
    intro i x r h
    cases i with
    | zero =>
      injection h with _ h2
    | succ i => exact ih h

theorem take_succ_of_drop {l : List Yaml} : ∀ {i : Nat} {x : Yaml} {r : List Yaml},
    l.drop i = x :: r → l.take (i + 1) = l.take i ++ [x] := by
  induction l with
  | nil =>
    intro i x r h
    rw [List.drop_nil] at h
    cases h
  | cons y t ih =>
    intro i x r h
    cases i with
    | zero =>
      injection h with h1 _
      rw [h1]
      rfl
    | succ i =>
      have := ih h
      simp only [List.take_succ_cons, this, List.cons_append]

theorem listSet_take_succ {v : Yaml} {l : List Yaml} :
    ∀ {i : Nat} {x : Yaml} {r : List Yaml},
    l.drop i = x :: r → (listSet l i v).take (i + 1) = l.take i ++ [v] := by
  induction l with
  | nil =>
    intro i x r h
    rw [List.drop_nil] at h
    cases h
  | cons y t ih =>
    intro i x r h
    cases i with
    | zero => rfl
    | succ i =>
      have := ih h
      simp only [listSet, List.take_succ_cons, this, List.cons_append]

theorem listSet_drop_succ {v : Yaml} {l : List Yaml} : ∀ {i : Nat},
    (listSet l i v).drop (i + 1) = l.drop (i + 1) := by
  induction l with
  | nil => intro i; rfl
  | cons y t ih =>
    intro i
    cases i with
    | zero => rfl
    | succ i =>
      show (listSet t i v).drop (i + 1) = t.drop (i + 1)
      exact ih

theorem get_steps_keys_cons {k : String} {v : Yaml} {r : List Yaml} :
    get_steps_keys (.map [(.str k, v)] :: r) = k :: get_steps_keys r := rfl

theorem stemsOf_eq (ts : Tools) : ts.map (fun s => s.1.stem) = stemsOf ts := rfl

theorem subkeys_spec {S : List String} {ts : Tools} {keys : List String} {k : String}
    (hc : StemsCompat S ts) (hnm : ¬ isMintedName k) (hmem : k ∈ keys) :
    (get_subkeys keys (stemsOf ts)).contains k = !(S.contains k) := by
  have hst : (stemsOf ts).contains k = S.contains k := hc k hnm
  cases hS : S.contains k with
  | true =>
    apply scontains_of_not_mem
    intro hmemf
    have := List.of_mem_filter hmemf
    rw [hst, hS] at this
    cases this
  | false =>
    apply scontains_of_mem
    apply List.mem_filter.mpr
    refine ⟨hmem, ?_⟩
    rw [hst, hS]
    rfl

theorem minted_fresh {env : SynthEnv} {st : SynthState}
    (hinv : ToolsInv env st) (hinj : UuidInj env) :
    ∀ kv ∈ toolsL st.tools, kv.1 ≠ mintedKey env st.nextUuid := by
  intro kv hm heq
  have hstem : kv.1.stem = sPSMinted ++ env.uuid st.nextUuid := by
    rw [heq, mintedKey_stem]
  rcases hinv kv hm with hl | ⟨j, hj, hst⟩
  · exact hl (hstem ▸ minted_isMinted _)
  · have : env.uuid j = env.uuid st.nextUuid :=
      string_append_cancel (hst ▸ hstem)
    have := hinj _ _ this
    omega

theorem SynthOut_single {env : SynthEnv} {st : SynthState} {cwl : Yaml}
    (hf : ∀ kv ∈ toolsL st.tools, kv.1 ≠ mintedKey env st.nextUuid) :
    SynthOut env st
      { tools := toolsUpdate st.tools ⟨sPSMinted ++ env.uuid st.nextUuid, sGlobal⟩
          ⟨sAutogen ++ (sPSMinted ++ env.uuid st.nextUuid) ++ sCwlExt, cwl⟩,
        files := st.files ++ [(sAutogen ++ (sPSMinted ++ env.uuid st.nextUuid) ++ sCwlExt, cwl)],
        nextUuid := st.nextUuid + 1 } 1 := by
  refine ⟨[(mintedKey env st.nextUuid,
    ⟨sAutogen ++ (sPSMinted ++ env.uuid st.nextUuid) ++ sCwlExt, cwl⟩)], ?_, ?_, ?_, ?_, ?_⟩
  · show toolsUpdate st.tools (mintedKey env st.nextUuid) _ = _
    exact toolsUpdate_append hf
  · rfl
  · rfl
  · show [mintedKey env st.nextUuid] = (List.range 1).map _
    simp [List.range_succ]
  · intro kv hm
    rcases List.mem_cons.mp hm with h1 | h2
    · subst h1
      rfl
    · cases h2

theorem synthPSStep_ok {env : SynthEnv} {root : String} {st : SynthState}
    {steps steps2 : List Yaml} {i : Nat} {st2 : SynthState} {v0 : Yaml}
    (hget : steps.get? i = some (.map [(.str kPythonScript, v0)]))
    (hok : synthPSStep env root st steps i = .ok (steps2, st2)) :
    ∃ v1 cwl,
      steps2 = listSet steps i (.map [(.str (sPSMinted ++ env.uuid st.nextUuid), v1)]) ∧
      yGet v1 kSubtree = yGet v0 kSubtree ∧
      st2 = { tools := toolsUpdate st.tools ⟨sPSMinted ++ env.uuid st.nextUuid, sGlobal⟩
                ⟨sAutogen ++ (sPSMinted ++ env.uuid st.nextUuid) ++ sCwlExt, cwl⟩,
              files := st.files ++ [(sAutogen ++ (sPSMinted ++ env.uuid st.nextUuid) ++ sCwlExt, cwl)],
              nextUuid := st.nextUuid + 1 } := by
  simp only [synthPSStep, hget] at hok
  have halk : alookup [(YKey.str kPythonScript, v0)] (YKey.str kPythonScript) = some v0 := by
    simp [alookup]
  simp only [halk] at hok
  cases hin : yGet v0 kIn with
  | none =>
    simp only [hin] at hok
    exact Except.noConfusion hok
  | some inArgs =>
    simp only [hin] at hok
    split at hok
    · rename_i inkvs
      by_cases hsk : hasK inkvs kScript = true
      · rw [if_neg (by simp [hsk])] at hok
        split at hok
        · rename_i spath hpath
          simp only [pure, Except.pure, Except.ok.injEq, Prod.mk.injEq] at hok
          obtain ⟨hsteps2, hst2⟩ := hok
          obtain ⟨vkvs, hv0⟩ := yGet_isMap hin
          refine ⟨_, _, hsteps2.symm, ?_, hst2.symm⟩
          rw [hv0]
          show yGet (ySet (.map vkvs) kIn _) kSubtree = _
          simp only [ySet, yGet]
          exact alookup_aset_other (by decide) _ _
        · exact Except.noConfusion hok
      · rw [if_pos (by simpa using hsk)] at hok
        exact Except.noConfusion hok
    · exact Except.noConfusion hok

theorem synth_uniq (fuel : Nat) :
    (∀ (env : SynthEnv) (t : YamlTree) (root : String) (st : SynthState)
        (r : YamlTree × SynthState) (S : List String) (K : Nat),
        SCDoc S t.yml K → StemsCompat S st.tools → ToolsInv env st → UuidInj env →
        python_script_generate_cwl fuel env t root st = .ok r →
        SynthOut env st r.2 K ∧ NPDoc r.1.yml ∧ RWDoc env st.nextUuid t.yml K r.1.yml) ∧
    (∀ (env : SynthEnv) (root : String) (st : SynthState) (bl : List (YKey × Yaml))
        (out : List (YKey × Yaml) × SynthState) (S : List String) (K : Nat),
        SCBacks S bl K → StemsCompat S st.tools → ToolsInv env st → UuidInj env →
        synthBackends fuel env root st bl = .ok out →
        SynthOut env st out.2 K ∧ NPBacks out.1 ∧ RWBacks env st.nextUuid bl K out.1) ∧
    (∀ (env : SynthEnv) (root : String) (sid : StepId) (subkeys : List String)
        (i : Nat) (steps : List Yaml) (st : SynthState) (keys : List String)
        (out : List Yaml × SynthState) (S : List String) (K : Nat),
        SCSteps S (steps.drop i) K →
        keys = get_steps_keys (steps.drop i) →
        (∀ k, ¬ isMintedName k → k ∈ keys → subkeys.contains k = !(S.contains k)) →
        StemsCompat S st.tools → ToolsInv env st → UuidInj env →
        synthSteps fuel env root sid subkeys i steps st keys = .ok out →
        (∃ proc, out.1 = steps.take i ++ proc ∧ NPSteps proc ∧
            RWSteps env st.nextUuid (steps.drop i) K proc) ∧
          SynthOut env st out.2 K) := by
  induction fuel with
  | zero =>
    refine ⟨?_, ?_, ?_⟩
    · intro env t root st r S K _ _ _ _ hok
      exact Except.noConfusion (by simpa only [python_script_generate_cwl] using hok)
    · intro env root st bl out S K hsc _ _ _ hok
      cases bl with
      | nil =>
        have hout : out = ([], st) := by
          simpa [synthBackends, pure, Except.pure] using hok.symm
        cases hsc
        subst hout
        exact ⟨SynthOut_refl env st, .nil, .nil _⟩
      | cons kv rest =>
        exact Except.noConfusion (by simpa only [synthBackends] using hok)
    · intro env root sid subkeys i steps st keys out S K hsc hkeys _ _ _ _ hok
      cases keys with
      | nil =>
        have hout : out = (steps, st) := by
          simpa [synthSteps, pure, Except.pure] using hok.symm
        subst hout
        generalize hd : steps.drop i = d at hsc hkeys
        cases hsc with
        | nil =>
          refine ⟨⟨[], ?_, .nil, ?_⟩, SynthOut_refl env st⟩
          · have h2 := List.take_append_drop i steps
            rw [hd, List.append_nil] at h2
            show steps = steps.take i ++ []
            rw [List.append_nil, h2]
          · exact RWSteps.nil _
        | leafPS v rest n hin hnosub ht => exact absurd hkeys.symm (by simp [get_steps_keys_cons])
        | leaf k v rest n hk hne hnm hnosub ht => exact absurd hkeys.symm (by simp [get_steps_keys_cons])
        | sub k v sub rest n m hk hne hnm hsub hd2 ht => exact absurd hkeys.symm (by simp [get_steps_keys_cons])
      | cons k rest =>
        exact Except.noConfusion (by simpa only [synthSteps] using hok)
  | succ fuel ih =>
    refine ⟨?_, ?_, ?_⟩
    · -- python_script_generate_cwl
      intro env t root st r S K hsc hcompat hinv hinj hok
      obtain ⟨sid, y⟩ := t
      cases hsc with
      | backs kvs bs n hb hl =>
        simp only [python_script_generate_cwl] at hok
        simp only [hb] at hok
        obtain ⟨bst, hbst, hp⟩ := exBind_ok hok
        simp only [pure, Except.pure, Except.ok.injEq] at hp
        subst hp
        obtain ⟨hout, hnp, hrw⟩ := ih.2.1 env root st bs bst S K hl hcompat hinv hinj hbst
        refine ⟨hout, ?_, ?_⟩
        · obtain ⟨wkvs, hw⟩ := yGet_isMap hb
          rw [hw]
          show NPDoc (ySet (.map kvs) kWic (ySet (.map wkvs) kBackends (.map bst.1)))
          simp only [ySet]
          refine NPDoc.backs _ bst.1 ?_ hnp
          simp only [dGet, yGet]
          rw [alookup_aset_self]
          simp only [Option.getD_some]
          rw [alookup_aset_self]
        · exact RWDoc.backs _ _ _ bst.1 _ hb hrw
      | steps kvs ss n hb hs hl =>
        simp only [python_script_generate_cwl] at hok
        simp only [hb, hs] at hok
        obtain ⟨sst, hsst, hp⟩ := exBind_ok hok
        simp only [pure, Except.pure, Except.ok.injEq] at hp
        subst hp
        have hsubk : ∀ k2, ¬ isMintedName k2 → k2 ∈ get_steps_keys ss →
            (get_subkeys (get_steps_keys ss)
              (st.tools.map (fun s => s.1.stem))).contains k2 = !(S.contains k2) := by
          intro k2 hnm hmem
          rw [stemsOf_eq]
          exact subkeys_spec hcompat hnm hmem
        obtain ⟨⟨proc, hproc, hnp, hrw⟩, hout⟩ :=
          ih.2.2 env root sid
            (get_subkeys (get_steps_keys ss) (st.tools.map (fun s => s.1.stem)))
            0 ss st (get_steps_keys ss) sst S K hl rfl hsubk hcompat hinv hinj hsst
        have hsst1 : sst.1 = proc := by simpa using hproc
        refine ⟨hout, ?_, ?_⟩
        · show NPDoc (ySet (.map kvs) kSteps (.list sst.1))
          simp only [ySet]
          refine NPDoc.steps _ sst.1 ?_ ?_ (hsst1 ▸ hnp)
          · show yGet ((alookup (aset kvs (.str kSteps) (.list sst.1)) (.str kWic)).getD yEmpty)
              kBackends = none
            rw [alookup_aset_other (by decide)]
            exact hb
          · show alookup (aset kvs (.str kSteps) (.list sst.1)) (.str kSteps) = some (.list sst.1)
            exact alookup_aset_self _ _ _
        · show RWDoc env st.nextUuid (.map kvs) K (ySet (.map kvs) kSteps (.list sst.1))
          rw [hsst1]
          exact RWDoc.steps _ _ _ proc _ hb hs hrw
    · -- synthBackends
      intro env root st bl out S K hsc hcompat hinv hinj hok
      cases hsc with
      | nil =>
        have hout : out = ([], st) := by
          simpa [synthBackends, pure, Except.pure] using hok.symm
        subst hout
        exact ⟨SynthOut_refl env st, .nil, .nil _⟩
      | cons k b rest n m hd ht =>
        simp only [synthBackends] at hok
        cases k with
        | str s => exact Except.noConfusion hok
        | sid stepid =>
          obtain ⟨bst, hbst, h2⟩ := exBind_ok hok
          obtain ⟨rst, hrst, hp⟩ := exBind_ok h2
          simp only [pure, Except.pure, Except.ok.injEq] at hp
          subst hp
          obtain ⟨hout1, hnp1, hrw1⟩ := ih.1 env ⟨stepid, b⟩ root st bst S n hd hcompat hinv hinj hbst
          obtain ⟨hout2, hnp2, hrw2⟩ := ih.2.1 env root bst.2 rest rst S m ht
            (SynthOut_compat hout1 hcompat) (SynthOut_toolsInv hout1 hinv) hinj hrst
          refine ⟨SynthOut_trans hout1 hout2, .cons _ _ _ hnp1 hnp2, ?_⟩
          have hid : bst.1.step_id = stepid := synth_preserves_id hbst
          rw [SynthOut_next hout1] at hrw2
          rw [hid]
          exact RWBacks.cons _ _ _ bst.1.yml _ _ _ _ hrw1 hrw2
    · -- synthSteps
      intro env root sid subkeys i steps st keys out S K hsc hkeys hsubk hcompat hinv hinj hok
      generalize hd : steps.drop i = d at hsc hkeys
      cases hsc with
      | nil =>
        rw [show get_steps_keys [] = [] from rfl] at hkeys
        subst hkeys
        have hout : out = (steps, st) := by
          simpa [synthSteps, pure, Except.pure] using hok.symm
        subst hout
        refine ⟨⟨[], ?_, .nil, ?_⟩, SynthOut_refl env st⟩
        · have h2 := List.take_append_drop i steps
          rw [hd, List.append_nil] at h2
          show steps = steps.take i ++ []
          rw [List.append_nil, h2]
        · exact RWSteps.nil _
      | leafPS v rest2 n hin hnosub ht =>
        rw [get_steps_keys_cons] at hkeys
        subst hkeys
        simp only [synthSteps] at hok
        have hcont : subkeys.contains kPythonScript = false := by
          rw [hsubk kPythonScript kPythonScript_not_minted (List.mem_cons_self _ _), hin]
          rfl
        rw [if_neg (by rw [hcont]; exact Bool.false_ne_true)] at hok
        simp only [if_true] at hok
        obtain ⟨acc, hps, hrest⟩ := exBind_ok hok
        obtain ⟨steps2, st2⟩ := acc
        have hgeti : steps.get? i = some (.map [(.str kPythonScript, v)]) := drop_cons_get hd
        obtain ⟨v1, cwl, hsteps2, hsubv1, hst2⟩ := synthPSStep_ok hgeti hps
        have hfresh := minted_fresh hinv hinj
        have hout1 : SynthOut env st st2 1 := hst2 ▸ SynthOut_single hfresh
        have hdropeq : steps2.drop (i + 1) = rest2 := by
          rw [hsteps2, listSet_drop_succ, drop_cons_succ hd]
        obtain ⟨⟨proc2, hproc2, hnp2, hrw2⟩, hout2⟩ :=
          ih.2.2 env root sid subkeys (i + 1) steps2 st2 (get_steps_keys rest2) out S n
            (by rw [hdropeq]; exact ht) (by rw [hdropeq])
            (fun k2 hnm hmem => hsubk k2 hnm (List.mem_cons_of_mem _ hmem))
            (SynthOut_compat hout1 hcompat) (SynthOut_toolsInv hout1 hinv) hinj hrest
        constructor
        · refine ⟨.map [(.str (sPSMinted ++ env.uuid st.nextUuid), v1)] :: proc2, ?_, ?_, ?_⟩
          · rw [hproc2, hsteps2, listSet_take_succ hd, List.append_assoc]
            rfl
          · refine NPSteps.leaf _ _ _ ?_ ?_ hnp2
            · intro hk
              injection hk with hk
              exact minted_ne_ps _ hk
            · rw [hsubv1]
              exact hnosub
          · have hn2 : st2.nextUuid = st.nextUuid + 1 := by rw [hst2]
            rw [hdropeq, hn2] at hrw2
            exact RWSteps.leafPS _ _ _ _ _ _ hrw2
        · have := SynthOut_trans hout1 hout2
          rwa [Nat.add_comm] at this
      | leaf k v rest2 n hk hne hnm hnosub ht =>
        rw [get_steps_keys_cons] at hkeys
        subst hkeys
        simp only [synthSteps] at hok
        have hcont : subkeys.contains k = false := by
          rw [hsubk k hnm (List.mem_cons_self _ _), hk]
          rfl
        rw [if_neg (by rw [hcont]; exact Bool.false_ne_true)] at hok
        rw [if_neg hne] at hok
        obtain ⟨acc, hacc, hrest⟩ := exBind_ok hok
        simp only [pure, Except.pure, Except.ok.injEq] at hacc
        subst hacc
        obtain ⟨⟨proc2, hproc2, hnp2, hrw2⟩, hout2⟩ :=
          ih.2.2 env root sid subkeys (i + 1) steps st (get_steps_keys rest2) out S K
            (by rw [drop_cons_succ hd]; exact ht) (by rw [drop_cons_succ hd])
            (fun k2 hnm2 hmem => hsubk k2 hnm2 (List.mem_cons_of_mem _ hmem))
            hcompat hinv hinj hrest
        refine ⟨⟨.map [(.str k, v)] :: proc2, ?_, ?_, ?_⟩, hout2⟩
        · rw [hproc2, take_succ_of_drop hd, List.append_assoc]
          rfl
        · refine NPSteps.leaf _ _ _ ?_ hnosub hnp2
          intro hke
          injection hke with hke
          exact hne hke
        · rw [drop_cons_succ hd] at hrw2
          exact RWSteps.leaf _ _ _ _ _ _ hne hrw2
      | sub k v sub rest2 n m hk hne hnm hsub hd2 ht =>
        rw [get_steps_keys_cons] at hkeys
        subst hkeys
        simp only [synthSteps] at hok
        have hcont : subkeys.contains k = true := by
          rw [hsubk k hnm (List.mem_cons_self _ _), hk]
          rfl
        rw [if_pos hcont] at hok
        have hgeti : steps.get? i = some (.map [(.str k, v)]) := drop_cons_get hd
        simp only [hgeti] at hok
        have halk : alookup [(YKey.str k, v)] (YKey.str k) = some v := by
          simp [alookup]
        simp only [halk, hsub] at hok
        obtain ⟨bst, hbst, h2⟩ := exBind_ok hok
        obtain ⟨acc, hacc, hrest⟩ := exBind_ok h2
        simp only [pure, Except.pure, Except.ok.injEq] at hacc
        subst hacc
        obtain ⟨hout1, hnpd, hrwd⟩ :=
          ih.1 env ⟨⟨k, sid.plugin_ns⟩, sub⟩ root st bst S n hd2 hcompat hinv hinj hbst
        have haset : aset [(YKey.str k, v)] (YKey.str k) (ySet v kSubtree bst.1.yml)
            = [(YKey.str k, ySet v kSubtree bst.1.yml)] := by
          simp [aset]
        have hdropeq : (listSet steps i
            (.map (aset [(YKey.str k, v)] (YKey.str k) (ySet v kSubtree bst.1.yml)))).drop (i + 1)
            = rest2 := by
          rw [listSet_drop_succ, drop_cons_succ hd]
        obtain ⟨⟨proc2, hproc2, hnp2, hrw2⟩, hout2⟩ :=
          ih.2.2 env root sid subkeys (i + 1)
            (listSet steps i
              (.map (aset [(YKey.str k, v)] (YKey.str k) (ySet v kSubtree bst.1.yml))))
            bst.2 (get_steps_keys rest2) out S m
            (by rw [hdropeq]; exact ht) (by rw [hdropeq])
            (fun k2 hnm2 hmem => hsubk k2 hnm2 (List.mem_cons_of_mem _ hmem))
            (SynthOut_compat hout1 hcompat) (SynthOut_toolsInv hout1 hinv) hinj hrest
        constructor
        · refine ⟨.map [(.str k, ySet v kSubtree bst.1.yml)] :: proc2, ?_, ?_, ?_⟩
          · rw [hproc2, listSet_take_succ hd, List.append_assoc, haset]
            rfl
          · refine NPSteps.sub _ _ bst.1.yml _ ?_ ?_ hnpd hnp2
            · intro hke
              injection hke with hke
              exact hne hke
            · obtain ⟨vkvs, hv⟩ := yGet_isMap hsub
              rw [hv]
              show alookup (aset vkvs (.str kSubtree) bst.1.yml) (.str kSubtree) = some bst.1.yml
              exact alookup_aset_self _ _ _
          · rw [hdropeq, SynthOut_next hout1] at hrw2
            exact RWSteps.sub _ _ _ _ bst.1.yml _ _ _ _ hne hsub hrwd hrw2
        · exact SynthOut_trans hout1 hout2

/-! ## Claim theorems -/

/-- Claim C10: every core pass preserves the identity of its input —
`read_ast_from_disk`, `merge_yml_trees` and `python_script_generate_cwl`
return a `YamlTree` whose `StepId` equals the input's, and
`tree_to_forest` returns a forest whose root tree carries the input's
identity (indeed the input tree itself); no pass renames the document it
was handed. -/
theorem C10_passes_preserve_identity :
    (∀ (fuel : Nat) (cfg : LoadCfg) (t t' : YamlTree),
      read_ast_from_disk fuel cfg t = .ok t' → t'.step_id = t.step_id) ∧
    (∀ (fuel : Nat) (t : YamlTree) (wp : Yaml) (ts : Tools) (t' : YamlTree),
      merge_yml_trees fuel t wp ts = .ok t' → t'.step_id = t.step_id) ∧
    (∀ (fuel : Nat) (env : SynthEnv) (t : YamlTree) (root : String)
      (st : SynthState) (r : YamlTree × SynthState),
      python_script_generate_cwl fuel env t root st = .ok r → r.1.step_id = t.step_id) ∧
    (∀ (fuel : Nat) (t : YamlTree) (ts : Tools) (f : YamlForest),
      tree_to_forest fuel t ts = .ok f → f.yaml_tree.step_id = t.step_id) :=
  ⟨fun _ _ _ _ h => read_ast_preserves_id h,
   fun _ _ _ _ _ h => merge_preserves_id h,
   fun _ _ _ _ _ _ h => synth_preserves_id h,
   fun _ _ _ _ h => by rw [forest_keeps_root h]⟩

/-- Witness for C10 on a concrete minimal document: all four passes
succeed on it and return the identity `⟨"root", "global"⟩` they were
handed. -/
theorem C10_witness :
    (read_ast_from_disk 2 trivCfg trivTree = .ok trivTree ∧
      trivTree.step_id = trivTree.step_id) ∧
    (merge_yml_trees 2 trivTree yEmpty [] = .ok ⟨⟨sRoot, sGlobal⟩, trivMerged⟩ ∧
      (⟨⟨sRoot, sGlobal⟩, trivMerged⟩ : YamlTree).step_id = trivTree.step_id) ∧
    (python_script_generate_cwl 2 demoSynthEnv trivTree sEmpty trivSynthState
        = .ok (trivTree, trivSynthState) ∧
      trivTree.step_id = trivTree.step_id) ∧
    (tree_to_forest 2 trivTree [] = .ok (.mk trivTree []) ∧
      (YamlForest.mk trivTree []).yaml_tree.step_id = trivTree.step_id) :=
  ⟨⟨rfl, C10_passes_preserve_identity.1 2 trivCfg trivTree trivTree rfl⟩,
   ⟨rfl, C10_passes_preserve_identity.2.1 2 trivTree yEmpty [] _ rfl⟩,
   ⟨rfl, C10_passes_preserve_identity.2.2.1 2 demoSynthEnv trivTree sEmpty
      trivSynthState (trivTree, trivSynthState) rfl⟩,
   ⟨rfl, C10_passes_preserve_identity.2.2.2 2 trivTree [] (.mk trivTree []) rfl⟩⟩

/-- Claim C1: for any document wic-block `d` and override mapping `o`
(the roles of `wic_self` and `wic_parent` at ast.py line 146, and of the
leaf-step self arguments and override arguments at lines 196-197), a
successful `TYPESAFE_REPLACE` merge yields a mapping in which every leaf
key path of `o` carries `o`'s value, every key path present only in `d`
keeps `d`'s value, and re-merging the result with the same `o` returns it
unchanged. -/
theorem C1_merge_override_law {fuel : Nat} {d o : List (YKey × Yaml)} {r : Yaml}
    (hnd : NodupDeep (.map o))
    (h : deepmerge fuel (.map d) (.map o) = .ok r) :
    (∀ (p : List YKey) (v : Yaml), getPath (.map o) p = some v → v.isMap = false →
      getPath r p = some v) ∧
    (∀ (p : List YKey) (v : Yaml), getPath (.map d) p = some v →
      getPath (.map o) p = none → getPath r p = some v) ∧
    (∃ f2, deepmerge f2 r (.map o) = .ok r) := by
  cases fuel with
  | zero => exact Except.noConfusion (by simpa only [deepmerge] using h)
  | succ fuel =>
    simp only [deepmerge] at h
    obtain ⟨r', hr', hp⟩ := exBind_ok h
    simp only [pure, Except.pure, Except.ok.injEq] at hp
    subst hp
    refine ⟨fun p v hp hv => merged_getPath_src hr' hnd hp hv,
      fun p v hp hs => merged_getPath_dst hr' hnd hp hs, ?_⟩
    obtain ⟨f2, hf2⟩ := merge_idem hr' hnd
    exact ⟨f2 + 1, by simp [deepmerge, Bind.bind, hf2, Except.bind, pure, Except.pure]⟩

/-- Witness for C1 at `d = {x: 1, y: 5}`, `o = {x: 2}`: the key present
in both carries the override's value, the key present only in `d` keeps
`d`'s value, and re-merging is the identity. -/
theorem C1_witness :
    deepmerge 3 (.map [(kX, .int 1), (kY, .int 5)]) (.map [(kX, .int 2)])
        = .ok (.map [(kX, .int 2), (kY, .int 5)]) ∧
    getPath (.map [(kX, .int 2), (kY, .int 5)]) [kX] = some (.int 2) ∧
    getPath (.map [(kX, .int 2), (kY, .int 5)]) [kY] = some (.int 5) ∧
    (∃ f2, deepmerge f2 (.map [(kX, .int 2), (kY, .int 5)]) (.map [(kX, .int 2)])
        = .ok (.map [(kX, .int 2), (kY, .int 5)])) := by
  have hnd : NodupDeep (.map [(kX, Yaml.int 2)]) :=
    .of_map _ (by simp) (fun kv hm => by
      rcases List.mem_singleton.mp hm with rfl
      exact .of_scalar _ rfl)
  have h := C1_merge_override_law hnd
    (show deepmerge 3 (.map [(kX, .int 1), (kY, .int 5)]) (.map [(kX, .int 2)])
        = .ok (.map [(kX, .int 2), (kY, .int 5)]) from rfl)
  exact ⟨rfl, h.1 [kX] (.int 2) rfl rfl, h.2.1 [kY] (.int 5) rfl rfl, h.2.2⟩

/-- Claim C7: in every merge the Parameter Merge Engine performs — the
wic-block merge of step 1 and the leaf-step argument merge of step 3,
both `mergedeep.merge(..., Strategy.TYPESAFE_REPLACE)` — an override
whose runtime kind differs from the value it overrides makes the merge
raise a hard `TypeError` instead of coercing: no `.ok` result exists.
The second conjunct instantiates this at `merge_yml_trees`' own wic-block
merge. -/
theorem C7_type_mismatch_is_hard_error :
    (∀ (fuel : Nat) (d o : List (YKey × Yaml)) (k : YKey) (dv sv : Yaml) (r : Yaml),
      alookup d k = some dv → alookup o k = some sv → sameKind dv sv = false →
      (o.map Prod.fst).Nodup →
      deepmerge fuel (.map d) (.map o) ≠ .ok r) ∧
    (∀ (fuel : Nat) (sid : StepId) (kvs o : List (YKey × Yaml)) (pv : Yaml)
      (ts : Tools) (t' : YamlTree),
      alookup o (.str kWic) = some pv →
      sameKind (dGet (.map kvs) kWic yEmpty) pv = false →
      (o.map Prod.fst).Nodup →
      merge_yml_trees fuel ⟨sid, .map kvs⟩ (.map o) ts ≠ .ok t') := by
  constructor
  · intro fuel d o k dv sv r hd ho hkind hnd
    exact deepmerge_conflict hd ho hkind hnd fuel r
  · intro fuel sid kvs o pv ts t' ho hkind hnd h
    cases fuel with
    | zero => exact Except.noConfusion (by simpa only [merge_yml_trees] using h)
    | succ fuel =>
      simp only [merge_yml_trees] at h
      obtain ⟨w, hw, _⟩ := exBind_ok h
      exact deepmerge_conflict (show alookup [(.str kWic, dGet (.map kvs) kWic yEmpty)]
          (.str kWic) = some (dGet (.map kvs) kWic yEmpty) by simp [alookup])
        ho hkind hnd fuel w hw

/-- Witness for C7: overriding the mapping `{x: {}}` with the scalar
`{x: 5}` is rejected, and a document whose `wic` block is a mapping
rejects a scalar `wic` override through `merge_yml_trees` as well. -/
theorem C7_witness :
    deepmerge 3 (.map [(kX, .map [])]) (.map [(kX, .int 5)]) ≠ .ok yEmpty ∧
    merge_yml_trees 3 ⟨⟨sRoot, sGlobal⟩, .map [(.str kWic, .map [])]⟩
        (.map [(.str kWic, .int 7)]) [] ≠ .ok trivTree :=
  ⟨C7_type_mismatch_is_hard_error.1 3 [(kX, .map [])] [(kX, .int 5)] kX (.map [])
      (.int 5) yEmpty rfl rfl rfl (by simp),
   C7_type_mismatch_is_hard_error.2 3 ⟨sRoot, sGlobal⟩ [(.str kWic, .map [])]
      [(.str kWic, .int 7)] (.int 7) [] trivTree rfl rfl (by simp)⟩

/-- Claim C6: during loading, every non-leaf step failure is fatal and
case-specific: an unknown (or empty) namespace yields the diagnostic
naming that namespace and pointing at `search_paths_wic`; an unresolved
stem yields a distinct diagnostic naming the referring document, with the
indentation hint exactly when the stem is the literal `in`; a path that
does not exist on disk or lacks the `.wic` extension yields a third
distinct diagnostic; and an error from the step loop aborts
`read_ast_from_disk` itself, so none of the cases is recovered within the
pass. -/
theorem C6_loader_diagnostics :
    (∀ (fuel : Nat) (cfg : LoadCfg) (step_id : StepId) (wic_steps : Yaml)
      (subkeys : List String) (i : Nat) (steps : List Yaml) (step_key : String)
      (rest : List String),
      subkeys.contains step_key = true →
      (lookupNs cfg.yml_paths (resolveStepNs wic_steps i step_key)).isEmpty = true →
      loadSteps (fuel + 1) cfg step_id wic_steps subkeys i steps (step_key :: rest)
        = .error (.exc (nsNotFoundMsg (resolveStepNs wic_steps i step_key)))) ∧
    (∀ (fuel : Nat) (cfg : LoadCfg) (step_id : StepId) (wic_steps : Yaml)
      (subkeys : List String) (i : Nat) (steps : List Yaml) (step_key : String)
      (rest : List String),
      subkeys.contains step_key = true →
      (lookupNs cfg.yml_paths (resolveStepNs wic_steps i step_key)).isEmpty = false →
      slookup (lookupNs cfg.yml_paths (resolveStepNs wic_steps i step_key))
        (pathStem step_key) = none →
      loadSteps (fuel + 1) cfg step_id wic_steps subkeys i steps (step_key :: rest)
        = .error (.exc (stemNotFoundMsg (pathStem step_key)
            (resolveStepNs wic_steps i step_key) step_id.stem))) ∧
    (∀ (fuel : Nat) (cfg : LoadCfg) (step_id : StepId) (wic_steps : Yaml)
      (subkeys : List String) (i : Nat) (steps : List Yaml) (step_key : String)
      (rest : List String) (yaml_path : String),
      subkeys.contains step_key = true →
      (lookupNs cfg.yml_paths (resolveStepNs wic_steps i step_key)).isEmpty = false →
      slookup (lookupNs cfg.yml_paths (resolveStepNs wic_steps i step_key))
        (pathStem step_key) = some yaml_path →
      (slookup cfg.fs yaml_path = none ∨ pathSuffix yaml_path ≠ sWicExt) →
      loadSteps (fuel + 1) cfg step_id wic_steps subkeys i steps (step_key :: rest)
        = .error (.exc (badPathMsg yaml_path))) ∧
    (∀ (plugin_ns doc_stem : String),
      stemNotFoundMsg kIn plugin_ns doc_stem
        = stemNotFoundBase kIn plugin_ns doc_stem ++ inTagHint doc_stem) ∧
    (∀ (stem plugin_ns doc_stem : String), ¬ stem = kIn →
      stemNotFoundMsg stem plugin_ns doc_stem = stemNotFoundBase stem plugin_ns doc_stem) ∧
    (∀ (fuel : Nat) (cfg : LoadCfg) (sid : StepId) (kvs : List (YKey × Yaml))
      (steps : List Yaml) (e : Err),
      (!cfg.ignore_validation_errors && !cfg.validate (.map kvs)) = false →
      yGet (dGet (.map kvs) kWic yEmpty) kBackends = none →
      yGet (.map kvs) kSteps = some (.list steps) →
      loadSteps fuel cfg sid (dGet (dGet (.map kvs) kWic yEmpty) kSteps yEmpty)
        (get_subkeys (get_steps_keys steps) (cfg.tools.map (fun st => st.1.stem)))
        0 steps (get_steps_keys steps) = .error e →
      read_ast_from_disk (fuel + 1) cfg ⟨sid, .map kvs⟩ = .error e) := by
  refine ⟨?_, ?_, ?_, ?_, ?_, ?_⟩
  · intro fuel cfg step_id wic_steps subkeys i steps step_key rest h1 h2
    exact loadSteps_ns_error h1 h2
  · intro fuel cfg step_id wic_steps subkeys i steps step_key rest h1 h2 h3
    exact loadSteps_stem_error h1 h2 h3
  · intro fuel cfg step_id wic_steps subkeys i steps step_key rest yaml_path h1 h2 h3 h4
    exact loadSteps_path_error h1 h2 h3 h4
  · intro plugin_ns doc_stem
    simp [stemNotFoundMsg]
  · intro stem plugin_ns doc_stem hne
    simp [stemNotFoundMsg, hne]
  · intro fuel cfg sid kvs steps e h1 h2 h3 h4
    exact read_ast_propagates h1 h2 h3 h4

/-- Witness for C6: the three diagnostics and the propagation, observed
on concrete configurations, plus the `in`-hint behavior at `in` and at an
ordinary stem. -/
theorem C6_witness :
    loadSteps 1 trivCfg rootId yEmpty [sSub] 0 c6Steps [sSub]
      = .error (.exc (nsNotFoundMsg sGlobal)) ∧
    loadSteps 1 c6CfgStem rootId yEmpty [sSub] 0 c6Steps [sSub]
      = .error (.exc (stemNotFoundMsg sSub sGlobal sRoot)) ∧
    loadSteps 1 c6CfgPath rootId yEmpty [sSub] 0 c6Steps [sSub]
      = .error (.exc (badPathMsg sPathSub)) ∧
    stemNotFoundMsg kIn sGlobal sRoot
      = stemNotFoundBase kIn sGlobal sRoot ++ inTagHint sRoot ∧
    stemNotFoundMsg sSub sGlobal sRoot = stemNotFoundBase sSub sGlobal sRoot ∧
    read_ast_from_disk 2 trivCfg ⟨rootId, c6Doc⟩
      = .error (.exc (nsNotFoundMsg sGlobal)) := by
  refine ⟨?_, ?_, ?_, ?_, ?_, ?_⟩
  · exact C6_loader_diagnostics.1 0 trivCfg rootId yEmpty [sSub] 0 c6Steps sSub []
      (by decide) (by decide)
  · exact C6_loader_diagnostics.2.1 0 c6CfgStem rootId yEmpty [sSub] 0 c6Steps sSub []
      (by decide) (by decide) (by decide)
  · exact C6_loader_diagnostics.2.2.1 0 c6CfgPath rootId yEmpty [sSub] 0 c6Steps sSub []
      sPathSub (by decide) (by decide) (by decide) (.inl rfl)
  · exact C6_loader_diagnostics.2.2.2.1 sGlobal sRoot
  · exact C6_loader_diagnostics.2.2.2.2.1 sSub sGlobal sRoot (by decide)
  · exact C6_loader_diagnostics.2.2.2.2.2 1 trivCfg rootId
      [(.str kSteps, .list c6Steps)] c6Steps (.exc (nsNotFoundMsg sGlobal))
      (by decide) rfl rfl
      (C6_loader_diagnostics.1 0 trivCfg rootId yEmpty [sSub] 0 c6Steps sSub []
        (by decide) (by decide))

/-- Claim C9: a step with no explicit per-step namespace override
resolves against the `"global"` namespace: the shared resolution function
defaults to `"global"`; the loader then looks the step up in the
`"global"` search-path table and recursively loads it under
`StepId(step_key, "global")`; and the forest builder recurses into such a
step's subtree under `StepId(step_key, "global")` as well. -/
theorem C9_default_namespace_global :
    (∀ (wic_steps : Yaml) (i : Nat) (step_key : String),
      yGet (dGet (dGet wic_steps (stepPosKey i step_key) yEmpty) kWic yEmpty)
        kNamespace = none →
      resolveStepNs wic_steps i step_key = sGlobal) ∧
    (∀ (fuel : Nat) (cfg : LoadCfg) (step_id : StepId) (wic_steps : Yaml)
      (subkeys : List String) (i : Nat) (steps : List Yaml) (step_key : String)
      (rest : List String) (out : List Yaml),
      subkeys.contains step_key = true →
      yGet (dGet (dGet wic_steps (stepPosKey i step_key) yEmpty) kWic yEmpty)
        kNamespace = none →
      loadSteps (fuel + 1) cfg step_id wic_steps subkeys i steps (step_key :: rest)
        = .ok out →
      ∃ yaml_path content sub,
        slookup (lookupNs cfg.yml_paths sGlobal) (pathStem step_key) = some yaml_path ∧
        slookup cfg.fs yaml_path = some content ∧
        read_ast_from_disk fuel cfg ⟨⟨step_key, sGlobal⟩, content⟩ = .ok sub) ∧
    (∀ (fuel : Nat) (tools : Tools) (wic_steps : Yaml) (subkeys : List String)
      (i : Nat) (steps : List Yaml) (step_key : String) (rest : List String)
      (lst : List (StepId × YamlForest)),
      subkeys.contains step_key = true →
      yGet (dGet (dGet wic_steps (stepPosKey i step_key) yEmpty) kWic yEmpty)
        kNamespace = none →
      forestSteps (fuel + 1) tools wic_steps subkeys i steps (step_key :: rest)
        = .ok lst →
      ∃ ff tl, lst = (⟨step_key, sGlobal⟩, ff) :: tl) := by
  refine ⟨?_, ?_, ?_⟩
  · intro wic_steps i step_key hns
    exact resolveStepNs_global hns
  · intro fuel cfg step_id wic_steps subkeys i steps step_key rest out h1 h2 h3
    exact loadSteps_head_global h1 h2 h3
  · intro fuel tools wic_steps subkeys i steps step_key rest lst h1 h2 h3
    exact forestSteps_head_global h1 h2 h3

/-- Witness for C9 on a one-step document whose only step `subwf` has no
override block. -/
theorem C9_witness :
    resolveStepNs yEmpty 0 sSub = sGlobal ∧
    (∃ yaml_path content sub,
      slookup (lookupNs demoCfg.yml_paths sGlobal) (pathStem sSub) = some yaml_path ∧
      slookup demoCfg.fs yaml_path = some content ∧
      read_ast_from_disk 4 demoCfg ⟨⟨sSub, sGlobal⟩, content⟩ = .ok sub) ∧
    (∃ ff tl, c9ForestOut = (⟨sSub, sGlobal⟩, ff) :: tl) := by
  refine ⟨C9_default_namespace_global.1 yEmpty 0 sSub rfl, ?_, ?_⟩
  · exact C9_default_namespace_global.2.1 4 demoCfg rootId yEmpty [sSub] 0
      [.map [(.str sSub, .null)]] sSub [] [loadedSubStep] (by decide) rfl rfl
  · exact C9_default_namespace_global.2.2 2 demoTools yEmpty [sSub] 0
      [loadedSubStep] sSub [] c9ForestOut (by decide) rfl rfl


/-- Counterexample to C8 as stated: a document whose `StepId` carries the
namespace `"custom"` and whose `wic` block declares one backend `b` with
no `wic.namespace` override.  The claim says the backend's recursive load
carries the enclosing document's namespace (`"custom"`); the code instead
keys the reassembled backend under `StepId("b", "global")`. -/
theorem C8_counterexample :
    read_ast_from_disk 3 trivCfg ⟨⟨sW, sCustom⟩, c8Doc⟩ = .ok ⟨⟨sW, sCustom⟩, c8Loaded⟩ ∧
    yGet (dGet c8Loaded kWic yEmpty) kBackends
      = some (.map [(.sid ⟨sBk, sGlobal⟩, backDoc)]) ∧
    ¬ sGlobal = sCustom :=
  ⟨rfl, rfl, by decide⟩

/-- Claim C8, amended: each backend alternative is recursively loaded
under the namespace declared by the document's own `wic.namespace` entry,
defaulting to `"global"` when none is declared — not under the enclosing
document's `StepId` namespace. -/
theorem C8_amended_backend_namespace :
    (∀ (wicv : Yaml), yGet wicv kNamespace = none → nsOfWic wicv = sGlobal) ∧
    (∀ (fuel : Nat) (cfg : LoadCfg) (sid : StepId) (kvs bs : List (YKey × Yaml))
      (t' : YamlTree),
      yGet (dGet (.map kvs) kWic yEmpty) kBackends = some (.map bs) →
      read_ast_from_disk (fuel + 1) cfg ⟨sid, .map kvs⟩ = .ok t' →
      ∃ out, loadBackends fuel cfg (nsOfWic (dGet (.map kvs) kWic yEmpty)) bs
          = .ok out ∧
        t' = ⟨sid, ySet (.map kvs) kWic
          (ySet (dGet (.map kvs) kWic yEmpty) kBackends (.map out))⟩) ∧
    (∀ (fuel : Nat) (cfg : LoadCfg) (ns : String) (bl out : List (YKey × Yaml)),
      loadBackends fuel cfg ns bl = .ok out →
      ∀ kv ∈ out, ∃ stem : String, kv.1 = .sid ⟨stem, ns⟩) := by
  refine ⟨?_, ?_, ?_⟩
  · intro wicv hns
    simp [nsOfWic, hns]
  · intro fuel cfg sid kvs bs t' hb h
    exact read_ast_backends_ok hb h
  · intro fuel cfg ns bl out h kv hm
    exact loadBackends_ns h kv hm

/-- Witness for the amended C8 at the counterexample document: the
declared-namespace default is `"global"`, the load decomposes through
`loadBackends` under `"global"`, and every reassembled key carries
`"global"`. -/
theorem C8_witness :
    nsOfWic (dGet c8Doc kWic yEmpty) = sGlobal ∧
    (∃ out, loadBackends 2 trivCfg (nsOfWic (dGet c8Doc kWic yEmpty))
        [(.str sBk, backDoc)] = .ok out ∧
      (⟨⟨sW, sCustom⟩, c8Loaded⟩ : YamlTree) = ⟨⟨sW, sCustom⟩,
        ySet c8Doc kWic (ySet (dGet c8Doc kWic yEmpty) kBackends (.map out))⟩) ∧
    (∀ kv ∈ [((YKey.sid ⟨sBk, sGlobal⟩), backDoc)],
      ∃ stem : String, kv.1 = .sid ⟨stem, sGlobal⟩) := by
  refine ⟨C8_amended_backend_namespace.1 (dGet c8Doc kWic yEmpty) rfl, ?_, ?_⟩
  · exact C8_amended_backend_namespace.2.1 2 trivCfg ⟨sW, sCustom⟩
      [(.str kWic, .map [(.str kBackends, .map [(.str sBk, backDoc)])]),
       (.str kSteps, .list [])]
      [(.str sBk, backDoc)] ⟨⟨sW, sCustom⟩, c8Loaded⟩ rfl rfl
  · exact C8_amended_backend_namespace.2.2 2 trivCfg sGlobal [(.str sBk, backDoc)]
      [((YKey.sid ⟨sBk, sGlobal⟩), backDoc)] rfl

/-- Claim C3: a document declaring N backend alternatives yields, from
the Loader, a backends mapping with exactly N alternatives — same names,
each bound to its recursively resolved sub-tree — and, from the Forest
Builder, a forest with exactly N children in mapping order, the root tree
unchanged (no step traversal at that node) and no alternative discarded
or pre-selected. -/
theorem C3_backends_preserved :
    (∀ (fuel : Nat) (cfg : LoadCfg) (sid : StepId) (kvs bs : List (YKey × Yaml))
      (t' : YamlTree),
      yGet (dGet (.map kvs) kWic yEmpty) kBackends = some (.map bs) →
      read_ast_from_disk (fuel + 1) cfg ⟨sid, .map kvs⟩ = .ok t' →
      ∃ out, loadBackends fuel cfg (nsOfWic (dGet (.map kvs) kWic yEmpty)) bs
          = .ok out ∧
        t' = ⟨sid, ySet (.map kvs) kWic
          (ySet (dGet (.map kvs) kWic yEmpty) kBackends (.map out))⟩ ∧
        List.Forall₂ (BackLoaded cfg (nsOfWic (dGet (.map kvs) kWic yEmpty))) bs out ∧
        out.length = bs.length) ∧
    (∀ (fuel : Nat) (tools : Tools) (sid : StepId) (kvs bs : List (YKey × Yaml))
      (f : YamlForest),
      yGet (dGet (.map kvs) kWic yEmpty) kBackends = some (.map bs) →
      tree_to_forest (fuel + 1) ⟨sid, .map kvs⟩ tools = .ok f →
      ∃ ch, forestBackends fuel tools bs = .ok ch ∧
        f = .mk ⟨sid, .map kvs⟩ ch ∧
        List.Forall₂ (BackForest tools) bs ch ∧
        ch.length = bs.length) := by
  constructor
  · intro fuel cfg sid kvs bs t' hb h
    obtain ⟨out, hout, ht⟩ := read_ast_backends_ok hb h
    have hf := loadBackends_spec hout
    exact ⟨out, hout, ht, hf, hf.length_eq.symm⟩
  · intro fuel tools sid kvs bs f hb h
    obtain ⟨ch, hch, hf⟩ := tree_to_forest_backends_ok hb h
    have hrel := forestBackends_spec hch
    exact ⟨ch, hch, hf, hrel, hrel.length_eq.symm⟩

/-- Witness for C3: a document with two backends `fast` and `accurate`;
the loader returns both, keyed in order, and the forest builder produces
exactly two children over the loaded tree. -/
theorem C3_witness :
    read_ast_from_disk 4 trivCfg ⟨rootId, c3Doc⟩ = .ok ⟨rootId, c3Loaded⟩ ∧
    (∃ out, loadBackends 3 trivCfg (nsOfWic (dGet c3Doc kWic yEmpty)) c3Backs
        = .ok out ∧
      (⟨rootId, c3Loaded⟩ : YamlTree) = ⟨rootId,
        ySet c3Doc kWic (ySet (dGet c3Doc kWic yEmpty) kBackends (.map out))⟩ ∧
      List.Forall₂ (BackLoaded trivCfg (nsOfWic (dGet c3Doc kWic yEmpty))) c3Backs out ∧
      out.length = c3Backs.length) ∧
    tree_to_forest 4 ⟨rootId, c3Loaded⟩ [] = .ok (.mk ⟨rootId, c3Loaded⟩ c3Children) ∧
    (∃ ch, forestBackends 3 [] c3BacksLoaded = .ok ch ∧
      (YamlForest.mk ⟨rootId, c3Loaded⟩ c3Children : YamlForest)
        = .mk ⟨rootId, c3Loaded⟩ ch ∧
      List.Forall₂ (BackForest []) c3BacksLoaded ch ∧
      ch.length = c3BacksLoaded.length) := by
  refine ⟨rfl, ?_, rfl, ?_⟩
  · exact C3_backends_preserved.1 3 trivCfg rootId c3Kvs c3Backs ⟨rootId, c3Loaded⟩
      rfl rfl
  · exact C3_backends_preserved.2 3 [] rootId c3LoadedKvs c3BacksLoaded
      (.mk ⟨rootId, c3Loaded⟩ c3Children) rfl rfl

/-- Counterexample to C5 as stated: synthesizing the concrete
inline-script step `{python_script: {in: {script: foo.py, dockerPull:
img, x: 1}}}` removes `dockerPull` from the step's arguments but leaves
`script` in them — `del yml_args['script']` at ast.py line 292 deletes
only from the private deep copy of line 287, while line 298 deletes
`dockerPull` from the live step as well. -/
theorem C5_counterexample :
    python_script_generate_cwl 2 demoSynthEnv ⟨rootId, psDoc⟩ sEmpty ⟨psTools, [], 0⟩
      = .ok (⟨rootId, psDocOut⟩, psStOut) ∧
    yGet psOutIn kScript = some (.str sFoo) ∧
    yGet psOutIn kDockerPull = none :=
  ⟨rfl, rfl, rfl⟩


/-- Claim C5, amended: after the Inline-Script Synthesizer rewrites an
inline-script step, the step's argument mapping no longer contains a
`dockerPull` key — that deletion reaches the live step — but the `script`
key survives in the step's arguments: it is removed only from the private
copy handed to the introspection adapter. -/
theorem C5_amended_dockerpull_removed_script_kept :
    ∀ (env : SynthEnv) (root : String) (st : SynthState) (steps : List Yaml)
      (i : Nat) (kvs : List (YKey × Yaml)) (v0 : Yaml) (inkvs : List (YKey × Yaml))
      (steps2 : List Yaml) (st2 : SynthState),
      steps.get? i = some (.map kvs) →
      alookup kvs (.str kPythonScript) = some v0 →
      yGet v0 kIn = some (.map inkvs) →
      (inkvs.map Prod.fst).Nodup →
      synthPSStep env root st steps i = .ok (steps2, st2) →
      ∃ (uid : String) (inkvs2 : List (YKey × Yaml)),
        steps2 = listSet steps i (.map [(.str uid, ySet v0 kIn (.map inkvs2))]) ∧
        alookup inkvs2 (.str kScript) = alookup inkvs (.str kScript) ∧
        alookup inkvs2 (.str kDockerPull) = none := by
  intro env root st steps i kvs v0 inkvs steps2 st2 hget hkey hin hnd h
  simp only [synthPSStep, hget, hkey, hin] at h
  split at h
  · exact Except.noConfusion h
  · split at h
    · rename_i spath hs
      simp only [pure, Except.pure, Except.ok.injEq, Prod.mk.injEq] at h
      obtain ⟨h1, _⟩ := h
      by_cases hdp : (alookup (adel inkvs (.str kScript)) (.str kDockerPull)).isSome
      · refine ⟨sPSMinted ++ env.uuid st.nextUuid, adel inkvs (.str kDockerPull),
          ?_, ?_, ?_⟩
        · rw [← h1]
          simp [hdp]
        · exact adel_lookup_other (by simp [kScript, kDockerPull]) inkvs
        · exact adel_lookup_self hnd
      · refine ⟨sPSMinted ++ env.uuid st.nextUuid, inkvs, ?_, rfl, ?_⟩
        · rw [← h1]
          simp [hdp]
        · have : alookup (adel inkvs (.str kScript)) (.str kDockerPull) = none := by
            rcases hx : alookup (adel inkvs (.str kScript)) (.str kDockerPull) with _ | w
            · rfl
            · rw [hx] at hdp
              simp at hdp
          rw [← this, adel_lookup_other]
          simp [kScript, kDockerPull]
    · exact Except.noConfusion h

/-- Witness for the amended C5 at the concrete inline-script step. -/
theorem C5_witness :
    ∃ (uid : String) (inkvs2 : List (YKey × Yaml)),
      [Yaml.map [(.str psMinted, psOutVal)]]
        = listSet psSteps 0 (.map [(.str uid, ySet psStepVal kIn (.map inkvs2))]) ∧
      alookup inkvs2 (.str kScript) = alookup psInKvs (.str kScript) ∧
      alookup inkvs2 (.str kDockerPull) = none :=
  C5_amended_dockerpull_removed_script_kept demoSynthEnv sEmpty ⟨psTools, [], 0⟩
    psSteps 0 psStepKvs psStepVal psInKvs [Yaml.map [(.str psMinted, psOutVal)]]
    psStOut rfl rfl rfl (by decide) rfl

/-- Claim C2: on any schema-conformant input — the root document and
every document on disk raw-conformant (`RawDoc`) — a successful
`read_ast_from_disk` returns a tree in which every step value at every
nesting depth is in exactly one of the three shapes `null`, flat
tool-argument mapping without the reserved keys, or the exact two-key
`{subtree, parentargs}` mapping (`TriDoc`); no step value mixes the
reserved keys with ad hoc argument keys. -/
theorem C2_tristate_invariant :
    ∀ (fuel : Nat) (cfg : LoadCfg) (t t' : YamlTree),
      RawDoc t.yml → (∀ p y, (p, y) ∈ cfg.fs → RawDoc y) →
      read_ast_from_disk fuel cfg t = .ok t' → TriDoc t'.yml :=
  fun fuel cfg t t' hraw hfs h => (load_tri fuel).1 cfg t t' hraw hfs h

theorem rawDoc_c6Doc : RawDoc c6Doc := by
  refine RawDoc.mk _ ?_ ?_
  · intro bs h
    exact Option.noConfusion h
  · intro ss h
    have h2 : some (Yaml.list c6Steps) = some (.list ss) := h
    injection h2 with h2
    injection h2 with h2
    subst h2
    intro s hm
    rcases List.mem_singleton.mp hm with rfl
    refine ⟨[(.str sSub, .null)], rfl, ?_⟩
    intro kv hm2
    rcases List.mem_singleton.mp hm2 with rfl
    exact .inl rfl

theorem rawDoc_subDoc : RawDoc subDoc := by
  refine RawDoc.mk _ ?_ ?_
  · intro bs h
    exact Option.noConfusion h
  · intro ss h
    have h2 : some (Yaml.list [.map [(.str sA, .map [(.str sX, .int 0)])]])
        = some (.list ss) := h
    injection h2 with h2
    injection h2 with h2
    subst h2
    intro s hm
    rcases List.mem_singleton.mp hm with rfl
    refine ⟨[(.str sA, .map [(.str sX, .int 0)])], rfl, ?_⟩
    intro kv hm2
    rcases List.mem_singleton.mp hm2 with rfl
    exact .inr ⟨[(.str sX, .int 0)], rfl, rfl, rfl⟩

/-- Witness for C2 on a concrete root document with one sub-workflow
step resolved from the modelled filesystem. -/
theorem C2_witness :
    RawDoc c6Doc ∧
    (∀ p y, (p, y) ∈ demoCfg.fs → RawDoc y) ∧
    read_ast_from_disk 4 demoCfg ⟨rootId, c6Doc⟩ = .ok ⟨rootId, c2Loaded⟩ ∧
    TriDoc c2Loaded := by
  have hfs : ∀ p y, (p, y) ∈ demoCfg.fs → RawDoc y := by
    intro p y hm
    rcases List.mem_singleton.mp hm with he
    injection he with h1 h2
    subst h2
    exact rawDoc_subDoc
  refine ⟨rawDoc_c6Doc, hfs, rfl, ?_⟩
  exact C2_tristate_invariant 4 demoCfg ⟨rootId, c6Doc⟩ ⟨rootId, c2Loaded⟩
    rawDoc_c6Doc hfs rfl

/-- Claim C4: running the Inline-Script Synthesizer
(`python_script_generate_cwl`) on a document containing `K` steps keyed
by the reserved marker `python_script` — a document in the shape the
synthesizer traverses (`SCDoc S _ K`, where `S` is a stem set containing
`python_script`, kept consistent with the registry by `StemsCompat`, so
those steps are classified as rewritable leaves), with a non-repeating
uuid supply (`UuidInj`) and a registry whose minted-looking stems all
come from earlier uuid draws (`ToolsInv`) — inserts exactly `K` new,
pairwise-distinct registry keys of the form `python_script_<uuid>` in
the `"global"` namespace, each paired with a definition file written
under `autogenerated/`, rewrites each such step in place to use its
minted key (`RWDoc`: the step at the position of the `j`-th inline-script
step, in traversal order, is replaced by a single-key mapping keyed
`python_script_<uuid (nextUuid + j)>` — the stem of the `j`-th new
registry key — while every other step keeps its key and position), and
the original key `python_script` no longer appears as a step key
anywhere in the rewritten document (`NPDoc`). -/
theorem C4_synthesis_uniqueness
    (fuel : Nat) (env : SynthEnv) (t : YamlTree) (root : String) (st : SynthState)
    (r : YamlTree × SynthState) (S : List String) (K : Nat)
    (hsc : SCDoc S t.yml K) (hcompat : StemsCompat S st.tools)
    (hinv : ToolsInv env st) (hinj : UuidInj env)
    (hok : python_script_generate_cwl fuel env t root st = .ok r) :
    ∃ news : List (StepId × Tool),
      toolsL r.2.tools = toolsL st.tools ++ news ∧
      news.length = K ∧
      (news.map (fun kv => kv.1)).Nodup ∧
      (∀ kv ∈ news, ∃ u, kv.1 = ⟨sPSMinted ++ u, sGlobal⟩ ∧
        kv.2.run_path = sAutogen ++ (sPSMinted ++ u) ++ sCwlExt) ∧
      r.2.files = st.files ++ news.map (fun kv => (kv.2.run_path, kv.2.cwl)) ∧
      NPDoc r.1.yml ∧
      RWDoc env st.nextUuid t.yml K r.1.yml := by
  obtain ⟨hout, hnp, hrw⟩ := (synth_uniq fuel).1 env t root st r S K hsc hcompat hinv hinj hok
  obtain ⟨news, ht, hf, hu, hk, hr⟩ := hout
  refine ⟨news, ht, ?_, ?_, ?_, hf, hnp, hrw⟩
  · have hlen := congrArg List.length hk
    simpa using hlen
  · rw [hk]
    refine List.Nodup.map ?_ (List.nodup_range K)
    intro a b hab
    have hs : sPSMinted ++ env.uuid (st.nextUuid + a)
        = sPSMinted ++ env.uuid (st.nextUuid + b) := congrArg StepId.stem hab
    have := hinj _ _ (string_append_cancel hs)
    omega
  · intro kv hm
    have hkey : kv.1 ∈ news.map (fun kv => kv.1) := List.mem_map_of_mem _ hm
    rw [hk] at hkey
    obtain ⟨j, _, hkey⟩ := List.mem_map.mp hkey
    refine ⟨env.uuid (st.nextUuid + j), hkey.symm, ?_⟩
    rw [hr kv hm, ← hkey, mintedKey_stem]

/-- Witness for C4: the synthesizer, run with fuel 2 on the concrete
inline-script document `psDoc` from the registry `psTools` (which knows
the `python_script` stem) and the injective uuid supply `c4Env`, yields
exactly one new registry entry, keyed `python_script_<uuid 0>` in the
`"global"` namespace, paired with the file written under
`autogenerated/`, and the rewritten document has no `python_script`
step key. -/
theorem C4_witness :
    SCDoc [kPythonScript] psDoc 1 ∧
    StemsCompat [kPythonScript] c4Start.tools ∧
    ToolsInv c4Env c4Start ∧
    UuidInj c4Env ∧
    (∃ news : List (StepId × Tool),
      toolsL c4StOut.tools = toolsL c4Start.tools ++ news ∧
      news.length = 1 ∧
      (news.map (fun kv => kv.1)).Nodup ∧
      (∀ kv ∈ news, ∃ u, kv.1 = ⟨sPSMinted ++ u, sGlobal⟩ ∧
        kv.2.run_path = sAutogen ++ (sPSMinted ++ u) ++ sCwlExt) ∧
      c4StOut.files = c4Start.files ++ news.map (fun kv => (kv.2.run_path, kv.2.cwl)) ∧
      NPDoc c4DocOut ∧
      RWDoc c4Env c4Start.nextUuid psDoc 1 c4DocOut) := by
  have hsc : SCDoc [kPythonScript] psDoc 1 :=
    .steps _ _ _ rfl rfl (.leafPS _ _ 0 (by decide) rfl .nil)
  have hcompat : StemsCompat [kPythonScript] c4Start.tools := by
    intro k _
    rfl
  have hinv : ToolsInv c4Env c4Start := by
    intro kv hm
    simp only [toolsL, c4Start, psTools, List.mem_singleton] at hm
    subst hm
    exact .inl kPythonScript_not_minted
  have hinj : UuidInj c4Env := by
    intro a b h
    have hd : List.replicate a 'u' = List.replicate b 'u' := congrArg String.data h
    have hlen := congrArg List.length hd
    simpa using hlen
  exact ⟨hsc, hcompat, hinv, hinj,
    C4_synthesis_uniqueness 2 c4Env ⟨rootId, psDoc⟩ sEmpty c4Start
      (⟨rootId, c4DocOut⟩, c4StOut) [kPythonScript] 1 hsc hcompat hinv hinj rfl⟩

end Wic
